import Mathlib

/-!
# rain: piece downloader and compact peer codec

A shallow embedding of

* `torrent/internal/piecedownloader/piecedownloader.go`
  (`PieceDownloader`, `requestBlocks`, `Run`, `allDone`), and
* `torrent/internal/tracker/compact.go`
  (`CompactPeer`, `NewCompactPeer`, `Addr`, `MarshalBinary`, `UnmarshalBinary`,
  `DecodePeersCompact`).

Machine integers are natural numbers; `uint32`/`uint16` conversions and
additions that can wrap carry an explicit `% 2^32` / `% 2^16`.  Go maps used
as sets (`map[uint32]struct{}`) are duplicate-free lists: `m[k] = struct{}{}`
is `List.insert`, `delete(m, k)` is `List.erase`, `len(m)` is `List.length`.
The channels of the `select` loop are a list of events taken one at a time.
-/

namespace Rain

/-! ## Piece downloader: data model and operations -/

/-- Block descriptor `pieceio.Block`: only the fields read by the downloader. -/
structure Block where
  Index : Nat
  Begin : Nat
  Length : Nat
deriving DecidableEq, Repr

/-- Piece descriptor `pieceio.Piece`.  The type is declared outside the two
source files; `VerifyHash` (digest comparison of a buffer) and the result of
`Data.Write` (`DataWriteFails buf = true` when the writer returns an error) are
taken as parameters. -/
structure Piece where
  Index : Nat
  Length : Nat
  Blocks : List Block
  VerifyHash : List Nat → Bool
  DataWriteFails : List Nat → Bool

/-- Wire message `peerprotocol.RequestMessage`. -/
structure RequestMessage where
  Index : Nat
  Begin : Nat
  Length : Nat
deriving DecidableEq, Repr

/-- Payload part of a value received on `PieceC` (`p.Piece`): offset, length and
the reader.  The reader is the list of bytes it yields before it ends. -/
structure PieceMessage where
  Begin : Nat
  Length : Nat
  Reader : List Nat
deriving DecidableEq, Repr

/-- Value received on `PieceC`: the block descriptor `p.Block` and the message
`p.Piece`. -/
structure PieceEvent where
  Block : Block
  Piece : PieceMessage
deriving DecidableEq, Repr

/-- One communication chosen by the `select` of `Run`. -/
inductive Event where
  | pieceC (p : PieceEvent)
  | rejectC (blk : Block)
  | chokeC
  | unchokeC
  | closeC
deriving DecidableEq, Repr

/-- Values assigned to `result.Error`. -/
inductive RunError where
  | unrequestedBlock (b : Block)
  | readFull
  | corruptPiece
  | dataWrite
  | unrequestedReject (b : Block)
deriving DecidableEq, Repr

/-- Control state of `Run`: still in the `for` loop, returned, or stopped by a
run-time panic (slice bounds, index out of range). -/
inductive Status where
  | running
  | returned
  | panicked
deriving DecidableEq, Repr

/-- The downloader.  `buffer`, `nextBlockIndex`, `requested`, `done` are the
fields of the Go struct; `error` is the local `result.Error` of `Run`; `sent`
logs the arguments of `Peer.SendMessage` and `written` the arguments of
`Piece.Data.Write`, oldest first. -/
structure PieceDownloader where
  Piece : Piece
  buffer : List Nat
  nextBlockIndex : Nat
  requested : List Nat
  done : List Nat
  error : Option RunError
  status : Status
  sent : List RequestMessage
  written : List (List Nat)

def maxQueuedBlocks : Nat := 10

/-- Constructor `New`: zeroed buffer of `pi.Length` bytes, empty sets. -/
def New (pi : Piece) : PieceDownloader :=
  { Piece := pi
    buffer := List.replicate pi.Length 0
    nextBlockIndex := 0
    requested := []
    done := []
    error := none
    status := Status.running
    sent := []
    written := [] }

/-- The loop condition of `requestBlocks`:
`d.nextBlockIndex < uint32(len(d.Piece.Blocks)) && len(d.requested) < maxQueuedBlocks`. -/
def requestCond (d : PieceDownloader) : Bool :=
  decide (d.nextBlockIndex < d.Piece.Blocks.length % 2 ^ 32) &&
    decide (d.requested.length < maxQueuedBlocks)

/-- One pass through the loop body of `requestBlocks` followed by the post
statement `d.nextBlockIndex++` (no wrap: the index is below a `uint32`). -/
def requestBody (d : PieceDownloader) : PieceDownloader :=
  match d.Piece.Blocks[d.nextBlockIndex]? with
  | none => { d with status := Status.panicked }
  | some b =>
    if d.nextBlockIndex ∈ d.done then
      { d with nextBlockIndex := d.nextBlockIndex + 1 }
    else
      { d with
        requested := d.requested.insert d.nextBlockIndex
        sent := d.sent ++ [{ Index := d.Piece.Index, Begin := b.Begin, Length := b.Length }]
        nextBlockIndex := d.nextBlockIndex + 1 }

/-- The loop of `requestBlocks`, cut after at most `fuel` iterations; a
run-time panic in the body leaves the loop. -/
def requestLoop : Nat → PieceDownloader → PieceDownloader
  | 0, d => d
  | fuel + 1, d =>
    if requestCond d = true ∧ d.status = Status.running then requestLoop fuel (requestBody d) else d

/-- Method `requestBlocks`.  Every iteration increases `nextBlockIndex`, so
`uint32(len(Blocks)) - nextBlockIndex` iterations exhaust the loop. -/
def requestBlocks (d : PieceDownloader) : PieceDownloader :=
  requestLoop (d.Piece.Blocks.length % 2 ^ 32 - d.nextBlockIndex) d

/-- Method `allDone`. -/
def allDone (d : PieceDownloader) : Bool :=
  decide (d.done.length = d.Piece.Blocks.length)

/-- Copy `data` into `buf` starting at offset `off`. -/
def writeAt (buf : List Nat) (off : Nat) (data : List Nat) : List Nat :=
  buf.take off ++ data ++ buf.drop (off + data.length)

/-- Call `io.ReadFull(r, buf[lo:hi])`: fills the window when the reader yields
at least `hi - lo` bytes, otherwise stores what it got and fails. -/
def readFull (r : List Nat) (buf : List Nat) (lo hi : Nat) : List Nat × Option RunError :=
  if hi - lo ≤ r.length then (writeAt buf lo (r.take (hi - lo)), none)
  else (writeAt buf lo r, some RunError.readFull)

/-- Lines 94-104 of `Run`: the membership test, `delete`, the read into
`d.buffer[p.Piece.Begin:p.Piece.Begin+p.Piece.Length]` (a `uint32` sum; the
slice expression panics unless `lo ≤ hi ≤ cap`), and the insertion in `done`.
The statement `close(p.Piece.Done)` touches no field of the downloader. -/
def receiveBlock (d : PieceDownloader) (p : PieceEvent) : PieceDownloader :=
  if p.Block.Index ∉ d.requested then
    { d with error := some (RunError.unrequestedBlock p.Block), status := Status.returned }
  else
    let d1 := { d with requested := d.requested.erase p.Block.Index }
    let lo := p.Piece.Begin
    let hi := (p.Piece.Begin + p.Piece.Length) % 2 ^ 32
    if lo ≤ hi ∧ hi ≤ d1.buffer.length then
      let r := readFull p.Piece.Reader d1.buffer lo hi
      let d2 := { d1 with buffer := r.1, error := r.2 }
      if r.2 ≠ none then { d2 with status := Status.returned }
      else { d2 with done := d2.done.insert p.Block.Index }
    else { d1 with status := Status.panicked }

/-- Lines 105-114 of `Run`.  The `break` after a failed `VerifyHash` leaves the
`select` statement only: the `for` loop goes on with `result.Error` set. -/
def completeOrRequest (d : PieceDownloader) : PieceDownloader :=
  if allDone d = true then
    if d.Piece.VerifyHash d.buffer = false then
      { d with error := some RunError.corruptPiece }
    else
      { d with
        written := d.written ++ [d.buffer]
        error := if d.Piece.DataWriteFails d.buffer = true then some RunError.dataWrite else none
        status := Status.returned }
  else requestBlocks d

/-- Case `p := <-d.PieceC`. -/
def handlePiece (d : PieceDownloader) (p : PieceEvent) : PieceDownloader :=
  let d1 := receiveBlock d p
  if d1.status = Status.running then completeOrRequest d1 else d1

/-- Case `blk := <-d.RejectC`. -/
def handleReject (d : PieceDownloader) (blk : Block) : PieceDownloader :=
  if blk.Index ∉ d.requested then
    { d with error := some (RunError.unrequestedReject blk), status := Status.returned }
  else
    { d with requested := d.requested.erase blk.Index, nextBlockIndex := 0 }

/-- One turn of the `select` in `Run`. -/
def step (d : PieceDownloader) : Event → PieceDownloader
  | Event.pieceC p => handlePiece d p
  | Event.rejectC blk => handleReject d blk
  | Event.chokeC => { d with requested := [], nextBlockIndex := 0 }
  | Event.unchokeC => requestBlocks d
  | Event.closeC => { d with status := Status.returned }

/-- The `for` loop of `Run` over the events as they are received; events after
the loop has been left are not received. -/
def runEvents (d : PieceDownloader) : List Event → PieceDownloader
  | [] => d
  | e :: es => if d.status = Status.running then runEvents (step d e) es else d

/-- Method `Run` on a fresh downloader for `pi`: the first `requestBlocks`,
then the loop. -/
def Run (pi : Piece) (es : List Event) : PieceDownloader :=
  runEvents (requestBlocks (New pi)) es

/-- The request message that `requestBlocks` builds for block number `i`. -/
def requestMsg (pi : Piece) (i : Nat) : RequestMessage :=
  match pi.Blocks[i]? with
  | some b => { Index := pi.Index, Begin := b.Begin, Length := b.Length }
  | none => { Index := pi.Index, Begin := 0, Length := 0 }

/-! ## Compact peer codec -/

/-- Address `net.TCPAddr`: the IP byte slice and the port (an `int`). -/
structure TCPAddr where
  IP : List Nat
  Port : Int
deriving DecidableEq, Repr

/-- Record `CompactPeer`: `IP` is the array `[4]byte`, `Port` a `uint16`. -/
structure CompactPeer where
  IP : List Nat
  Port : Nat
deriving DecidableEq, Repr

/-- Errors of the codec. -/
inductive CodecError where
  | invalidCompactPeerLength
  | invalidPeerListLength
  | unexpectedEOF
deriving DecidableEq, Repr

/-- Builtin `copy(dst, src)`: the first `min(len(dst), len(src))` bytes of
`src` replace those of `dst`. -/
def copyBytes (dst src : List Nat) : List Nat :=
  (src.take dst.length) ++ dst.drop src.length

/-- Function `NewCompactPeer`; `uint16(addr.Port)` keeps the low 16 bits. -/
def NewCompactPeer (addr : TCPAddr) : CompactPeer :=
  { IP := copyBytes [0, 0, 0, 0] addr.IP, Port := (addr.Port % 65536).toNat }

/-- Method `Addr`. -/
def CompactPeer.Addr (p : CompactPeer) : TCPAddr :=
  { IP := p.IP, Port := (p.Port : Int) }

/-- Contents of a `bytes.Buffer`. -/
structure Buffer where
  buf : List Nat
deriving DecidableEq, Repr

/-- Call `binary.Write(buf, binary.BigEndian, p)`: appends the four IP bytes
and the port, high byte first; writing to a `bytes.Buffer` does not fail. -/
def binaryWrite (b : Buffer) (p : CompactPeer) : Buffer × Option CodecError :=
  ({ buf := b.buf ++ p.IP ++ [p.Port / 256 % 256, p.Port % 256] }, none)

/-- Method `MarshalBinary`.  Go calls the functions and methods in the
operands of a return statement in lexical left-to-right order, so in
`return buf.Bytes(), binary.Write(buf, binary.BigEndian, p)` the call
`buf.Bytes()` yields the slice of the still empty buffer (length `n = 0`,
capacity 6) before `binary.Write` fills the same array within its capacity:
the slice returned shows the first `n` bytes of what was written. -/
def MarshalBinary (p : CompactPeer) : List Nat × Option CodecError :=
  let buf : Buffer := { buf := [] }
  let n := buf.buf.length
  let w := binaryWrite buf p
  (w.1.buf.take n, w.2)

/-- Call `binary.Read(bytes.NewReader(r), binary.BigEndian, p)`: reads the 6
bytes of the record in full, failing when the reader ends before, then stores
four IP bytes and the port, high byte first. -/
def binaryRead (r : List Nat) (p : CompactPeer) : CompactPeer × Option CodecError :=
  if r.length < 6 then (p, some CodecError.unexpectedEOF)
  else ({ IP := r.take 4, Port := r.getD 4 0 * 256 + r.getD 5 0 }, none)

/-- Method `UnmarshalBinary`: the new value of the receiver and the error. -/
def UnmarshalBinary (p : CompactPeer) (data : List Nat) : CompactPeer × Option CodecError :=
  if data.length ≠ 6 then (p, some CodecError.invalidCompactPeerLength)
  else binaryRead data p

/-- Declaration `var peer CompactPeer`: the zero value. -/
def zeroCompactPeer : CompactPeer := { IP := [0, 0, 0, 0], Port := 0 }

/-- The `for` loop of `DecodePeersCompact`, cut after at most `fuel`
iterations; `b[i : i+6]` is in bounds whenever the loop is entered, the length
being a multiple of 6. -/
def decodeLoop : Nat → List Nat → Nat → List TCPAddr → List TCPAddr × Option CodecError
  | 0, _, _, addrs => (addrs, none)
  | fuel + 1, b, i, addrs =>
    if i < b.length then
      match UnmarshalBinary zeroCompactPeer ((b.drop i).take 6) with
      | (_, some err) => ([], some err)
      | (peer, none) => decodeLoop fuel b (i + 6) (addrs ++ [peer.Addr])
    else (addrs, none)

/-- Function `DecodePeersCompact`; a nil slice result is the empty list.  The
index grows by 6 in every iteration, so `len(b) / 6` iterations exhaust the
loop. -/
def DecodePeersCompact (b : List Nat) : List TCPAddr × Option CodecError :=
  if b.length % 6 ≠ 0 then ([], some CodecError.invalidPeerListLength)
  else decodeLoop (b.length / 6) b 0 []

/-! ## Notions used in the statements -/

/-- The loop body of `requestBlocks` when the loop condition holds, so that
the block lookup succeeds (`requestBody_eq`). -/
def requestBodyOk (d : PieceDownloader) : PieceDownloader :=
  if d.nextBlockIndex ∈ d.done then
    { d with nextBlockIndex := d.nextBlockIndex + 1 }
  else
    { d with
      requested := d.requested.insert d.nextBlockIndex
      sent := d.sent ++ [requestMsg d.Piece d.nextBlockIndex]
      nextBlockIndex := d.nextBlockIndex + 1 }

/-- Number of block indices below `k` that are not in `done`. -/
def pending (done : List Nat) (k : Nat) : Nat :=
  (List.range k).countP (fun i => decide (i ∉ done))

/-- What holds of the fields in every state that `Run` goes through. -/
structure Inv (d : PieceDownloader) : Prop where
  reqNodup : d.requested.Nodup
  doneNodup : d.done.Nodup
  disjoint : ∀ i, i ∈ d.requested → i ∉ d.done
  reqBound : ∀ i, i ∈ d.requested → i < d.Piece.Blocks.length % 2 ^ 32
  doneBound : ∀ i, i ∈ d.done → i < d.Piece.Blocks.length % 2 ^ 32
  reqLen : d.requested.length ≤ 10
  cursor : d.status = Status.running →
    ∀ i, i < d.nextBlockIndex → i ∈ d.done ∨ i ∈ d.requested
  window : ∀ k, k ∈ d.requested → pending d.done k < 10
  bufLen : d.buffer.length = d.Piece.Length

/-- The blocks lie one after the other starting at offset `off`. -/
def contiguousFrom : Nat → List Block → Bool
  | _, [] => true
  | off, b :: bs => decide (b.Begin = off) && contiguousFrom (off + b.Length) bs

/-- Sum of the block lengths. -/
def totalLength (bs : List Block) : Nat := (bs.map Block.Length).sum

/-- The bytes of `buf` in the window of block `b`. -/
def segment (buf : List Nat) (b : Block) : List Nat := (buf.drop b.Begin).take b.Length

/-- The blocks of the piece lie one after the other from offset 0 and fill it. -/
def Partitioned (pi : Piece) : Prop :=
  contiguousFrom 0 pi.Blocks = true ∧ pi.Length = totalLength pi.Blocks

/-- The event brings block `p.Block.Index` of the piece: offset and length of
that block, a reader that yields at least that many bytes, and these bytes
are `data p.Block.Index`. -/
def Delivers (pi : Piece) (data : Nat → List Nat) (p : PieceEvent) : Prop :=
  ∃ b, pi.Blocks[p.Block.Index]? = some b ∧ p.Piece.Begin = b.Begin ∧
    p.Piece.Length = b.Length ∧ b.Length ≤ p.Piece.Reader.length ∧
    p.Piece.Reader.take b.Length = data p.Block.Index

/-- The blocks' data joined in block-index order. -/
def assembled (pi : Piece) (data : Nat → List Nat) : List Nat :=
  ((List.range pi.Blocks.length).map data).flatten

/-- State of a run in which only requested, intact blocks have arrived. -/
structure Good (pi : Piece) (data : Nat → List Nat) (d : PieceDownloader) : Prop where
  inv : Inv d
  piece : d.Piece = pi
  running : d.status = Status.running
  noError : d.error = none
  noWrite : d.written = []
  stored : ∀ i b, i ∈ d.done → pi.Blocks[i]? = some b → segment d.buffer b = data i

/-- The sink log is empty, or `Run` has returned right after writing the
buffer that passed the digest check. -/
def SinkInv (d : PieceDownloader) : Prop :=
  d.written = [] ∨
    (d.status = Status.returned ∧ d.written = [d.buffer] ∧
      d.Piece.VerifyHash d.buffer = true ∧ d.error ≠ some RunError.corruptPiece)

/-- Nothing written, nothing requested, every block the loop can reach done. -/
def Finished (d : PieceDownloader) : Prop :=
  d.written = [] ∧ d.requested = [] ∧ ∀ i, i < d.Piece.Blocks.length % 2 ^ 32 → i ∈ d.done

/-- A pending corrupt-piece error means the state is `Finished`. -/
def CorruptInv (d : PieceDownloader) : Prop :=
  d.error = some RunError.corruptPiece → Finished d

/-- State in which the rejected block `k` waits for the next `requestBlocks`. -/
structure Waiting (k : Nat) (d : PieceDownloader) : Prop where
  inv : Inv d
  running : d.status = Status.running
  cursor : d.nextBlockIndex = 0
  notRequested : k ∉ d.requested
  notDone : k ∉ d.done
  bound : k < d.Piece.Blocks.length % 2 ^ 32
  window : pending d.done k < 10

/-- The lowest `maxQueuedBlocks` block indices that are not in `done`. -/
def firstPending (d : PieceDownloader) : List Nat :=
  ((List.range d.Piece.Blocks.length).filter (fun i => decide (i ∉ d.done))).take maxQueuedBlocks

/-- The address decoded from the `i`-th 6-byte record of `b`. -/
def recordAddr (b : List Nat) (i : Nat) : TCPAddr :=
  { IP := (b.drop (6 * i)).take 4
    Port := ((b.getD (6 * i + 4) 0 * 256 + b.getD (6 * i + 5) 0 : Nat) : Int) }

/-- Every requested index lies below the cursor. -/
def Ordered (d : PieceDownloader) : Prop :=
  ∀ r, r ∈ d.requested → r < d.nextBlockIndex

/-! ## Scenario data -/

/-- A piece of 8 bytes in two blocks of 4 bytes whose digest check accepts
exactly the bytes `1..8`. -/
def twoBlockPiece : Piece :=
  { Index := 0
    Length := 8
    Blocks := [{ Index := 0, Begin := 0, Length := 4 }, { Index := 1, Begin := 4, Length := 4 }]
    VerifyHash := fun buf => decide (buf = [1, 2, 3, 4, 5, 6, 7, 8])
    DataWriteFails := fun _ => false }

def evBlock0 : Event :=
  Event.pieceC { Block := { Index := 0, Begin := 0, Length := 4 },
                 Piece := { Begin := 0, Length := 4, Reader := [1, 2, 3, 4] } }

def evBlock1 : Event :=
  Event.pieceC { Block := { Index := 1, Begin := 4, Length := 4 },
                 Piece := { Begin := 4, Length := 4, Reader := [5, 6, 7, 8] } }

def evReject1 : Event := Event.rejectC { Index := 1, Begin := 4, Length := 4 }

def evBadBlock0 : Event :=
  Event.pieceC { Block := { Index := 0, Begin := 0, Length := 4 },
                 Piece := { Begin := 0, Length := 4, Reader := [9, 9, 9, 9] } }

/-- Two-block scenario: the bytes of block `i`. -/
def twoBlockData (i : Nat) : List Nat := if i = 0 then [1, 2, 3, 4] else [5, 6, 7, 8]

/-- A piece of 11 bytes in 11 blocks of one byte. -/
def elevenBlockPiece : Piece :=
  { Index := 0
    Length := 11
    Blocks := (List.range 11).map (fun i => { Index := i, Begin := i, Length := 1 })
    VerifyHash := fun _ => true
    DataWriteFails := fun _ => false }

/-- A 16-byte IP (2001:db8::1) with port 80. -/
def ipv6Addr : TCPAddr :=
  { IP := [32, 1, 13, 184, 0, 0, 0, 0, 0, 0, 0, 0, 0, 0, 0, 1], Port := 80 }

/-- The reject of block 0 of the two-block piece. -/
def evReject0 : Event := Event.rejectC { Index := 0, Begin := 0, Length := 4 }

/-- A block-data event that names block 0 while its message carries the
offset of block 1. -/
def evMisplaced : PieceEvent :=
  { Block := { Index := 0, Begin := 0, Length := 4 },
    Piece := { Begin := 4, Length := 4, Reader := [1, 2, 3, 4] } }

/-! ## Theorems -/

theorem requestCond_iff (d : PieceDownloader) :
    requestCond d = true ↔
      d.nextBlockIndex < d.Piece.Blocks.length % 2 ^ 32 ∧ d.requested.length < 10 := by
  simp [requestCond, maxQueuedBlocks]

theorem requestBody_eq {d : PieceDownloader} (h : requestCond d = true) :
    requestBody d = requestBodyOk d := by
  have h1 : d.nextBlockIndex < d.Piece.Blocks.length :=
    lt_of_lt_of_le ((requestCond_iff d).1 h).1 (Nat.mod_le _ _)
  have h2 : d.Piece.Blocks[d.nextBlockIndex]? = some (d.Piece.Blocks[d.nextBlockIndex]) :=
    List.getElem?_eq_getElem h1
  simp only [requestBody, requestBodyOk, requestMsg, h2]

/-- Induction over the iterations of the loop of `requestBlocks`. -/
theorem requestLoop_induct (P : PieceDownloader → Prop)
    (hstep : ∀ d, requestCond d = true → d.status = Status.running → P d → P (requestBodyOk d)) :
    ∀ (fuel : Nat) (d : PieceDownloader), P d → P (requestLoop fuel d) := by
  intro fuel
  induction fuel with
  | zero => intro d hd; exact hd
  | succ n ih =>
    intro d hd
    unfold requestLoop
    split
    · rename_i hc
      rw [requestBody_eq hc.1]
      exact ih _ (hstep d hc.1 hc.2 hd)
    · exact hd

theorem requestBodyOk_frame (d : PieceDownloader) :
    (requestBodyOk d).Piece = d.Piece ∧ (requestBodyOk d).done = d.done ∧
    (requestBodyOk d).buffer = d.buffer ∧ (requestBodyOk d).error = d.error ∧
    (requestBodyOk d).status = d.status ∧ (requestBodyOk d).written = d.written ∧
    (requestBodyOk d).nextBlockIndex = d.nextBlockIndex + 1 := by
  unfold requestBodyOk
  split <;> simp

/-- The loop of `requestBlocks` touches only `requested`, `sent` and the cursor. -/
theorem requestLoop_frame (fuel : Nat) (d : PieceDownloader) :
    (requestLoop fuel d).Piece = d.Piece ∧ (requestLoop fuel d).done = d.done ∧
    (requestLoop fuel d).buffer = d.buffer ∧ (requestLoop fuel d).error = d.error ∧
    (requestLoop fuel d).status = d.status ∧ (requestLoop fuel d).written = d.written := by
  apply requestLoop_induct (fun x => x.Piece = d.Piece ∧ x.done = d.done ∧
    x.buffer = d.buffer ∧ x.error = d.error ∧ x.status = d.status ∧ x.written = d.written)
  · intro x _ _ hx
    obtain ⟨h1, h2, h3, h4, h5, h6, _⟩ := requestBodyOk_frame x
    rw [h1, h2, h3, h4, h5, h6]
    exact hx
  · simp

/-- The fuel given by `requestBlocks` is enough: the loop ends because its
condition fails, not because it is cut. -/
theorem requestLoop_exit (fuel : Nat) (d : PieceDownloader)
    (hf : d.Piece.Blocks.length % 2 ^ 32 - d.nextBlockIndex ≤ fuel)
    (hr : d.status = Status.running) :
    requestCond (requestLoop fuel d) = false := by
  induction fuel generalizing d with
  | zero =>
    simp only [requestLoop]
    cases hc : requestCond d with
    | false => rfl
    | true =>
      have := ((requestCond_iff d).1 hc).1
      omega
  | succ n ih =>
    unfold requestLoop
    split
    · rename_i hc
      rw [requestBody_eq hc.1]
      obtain ⟨h1, _, _, _, h5, _, h7⟩ := requestBodyOk_frame d
      apply ih
      · rw [h1, h7]; omega
      · rw [h5]; exact hr
    · rename_i hc
      cases hq : requestCond d with
      | false => rfl
      | true => exact absurd ⟨hq, hr⟩ hc

theorem pending_mono (done : List Nat) {a b : Nat} (h : a ≤ b) :
    pending done a ≤ pending done b :=
  List.Sublist.countP_le _ (List.range_sublist.2 h)

theorem pending_succ (done : List Nat) (k : Nat) :
    pending done (k + 1) = pending done k + if k ∉ done then 1 else 0 := by
  unfold pending
  rw [List.range_succ, List.countP_append]
  by_cases h : k ∈ done <;> simp [h]

theorem pending_lt (done : List Nat) {x y : Nat} (h : x < y) (hx : x ∉ done) :
    pending done x < pending done y := by
  have h1 : pending done (x + 1) ≤ pending done y := pending_mono done h
  rw [pending_succ, if_pos hx] at h1
  omega

theorem pending_insert_le (done : List Nat) (j k : Nat) :
    pending (done.insert j) k ≤ pending done k := by
  unfold pending
  apply List.countP_mono_left
  intro x _ hx
  simp only [decide_eq_true_eq] at hx ⊢
  intro hmem
  exact hx (List.mem_insert_of_mem hmem)

/-- When every index below `c` is done or requested, the indices below `c`
that are not done are at most as many as the requested ones. -/
theorem pending_le_length (done req : List Nat) (c : Nat)
    (h : ∀ i, i < c → i ∈ done ∨ i ∈ req) : pending done c ≤ req.length := by
  unfold pending
  rw [List.countP_eq_length_filter]
  apply List.Subperm.length_le
  apply List.subperm_of_subset
  · exact (List.nodup_range c).filter _
  · intro x hx
    rw [List.mem_filter, List.mem_range] at hx
    rcases h x hx.1 with h1 | h1
    · simp [h1] at hx
    · exact h1

/-- A duplicate-free list of not-done indices, each with fewer than `n`
not-done indices below it, has at most `n` elements. -/
theorem length_le_of_window (done l : List Nat) (n : Nat) (hnd : l.Nodup)
    (h : ∀ x ∈ l, x ∉ done ∧ pending done x < n) : l.length ≤ n := by
  have hinj : (l.map (pending done)).Nodup := by
    apply List.Nodup.map_on _ hnd
    intro x hx y hy hxy
    rcases Nat.lt_trichotomy x y with hlt | heq | hgt
    · have := pending_lt done hlt (h x hx).1
      omega
    · exact heq
    · have := pending_lt done hgt (h y hy).1
      omega
  have hsub : l.map (pending done) ⊆ List.range n := by
    intro v hv
    rw [List.mem_map] at hv
    obtain ⟨x, hx, rfl⟩ := hv
    exact List.mem_range.2 (h x hx).2
  have := (List.subperm_of_subset hinj hsub).length_le
  simpa using this

theorem Inv_New (pi : Piece) : Inv (New pi) := by
  constructor <;> simp [New]

theorem Inv_requestBodyOk {d : PieceDownloader} (hc : requestCond d = true)
    (hr : d.status = Status.running) (h : Inv d) : Inv (requestBodyOk d) := by
  obtain ⟨hlt, hlen⟩ := (requestCond_iff d).1 hc
  unfold requestBodyOk
  split
  · rename_i hdone
    refine ⟨h.reqNodup, h.doneNodup, h.disjoint, h.reqBound, h.doneBound, h.reqLen, ?_,
      h.window, h.bufLen⟩
    intro _ i hi
    simp only at hi
    rcases Nat.lt_succ_iff_lt_or_eq.1 hi with h1 | h1
    · exact h.cursor hr i h1
    · left; rw [h1]; exact hdone
  · rename_i hdone
    refine ⟨h.reqNodup.insert, h.doneNodup, ?_, ?_, h.doneBound, ?_, ?_, ?_, h.bufLen⟩
    · intro i hi
      rcases List.mem_insert_iff.1 hi with h1 | h1
      · rw [h1]; exact hdone
      · exact h.disjoint i h1
    · intro i hi
      rcases List.mem_insert_iff.1 hi with h1 | h1
      · rw [h1]; exact hlt
      · exact h.reqBound i h1
    · by_cases hm : d.nextBlockIndex ∈ d.requested
      · simp only [List.insert_of_mem hm]
        exact h.reqLen
      · simp only [List.length_insert_of_not_mem hm]
        omega
    · intro _ i hi
      simp only at hi ⊢
      rcases Nat.lt_succ_iff_lt_or_eq.1 hi with h1 | h1
      · rcases h.cursor hr i h1 with h2 | h2
        · exact Or.inl h2
        · exact Or.inr (List.mem_insert_of_mem h2)
      · right; rw [h1]; exact List.mem_insert_self _ _
    · intro k hk
      rcases List.mem_insert_iff.1 hk with h1 | h1
      · have := pending_le_length d.done d.requested d.nextBlockIndex (h.cursor hr)
        simp only at this ⊢
        rw [h1]
        omega
      · exact h.window k h1

theorem Inv_requestLoop (fuel : Nat) {d : PieceDownloader} (h : Inv d) :
    Inv (requestLoop fuel d) :=
  requestLoop_induct Inv (fun _ hc hr hx => Inv_requestBodyOk hc hr hx) fuel d h

theorem Inv_requestBlocks {d : PieceDownloader} (h : Inv d) : Inv (requestBlocks d) :=
  Inv_requestLoop _ h

theorem length_writeAt (buf data : List Nat) (off : Nat) (h : off + data.length ≤ buf.length) :
    (writeAt buf off data).length = buf.length := by
  simp only [writeAt, List.length_append, List.length_take, List.length_drop]
  omega

theorem length_readFull (r buf : List Nat) (lo hi : Nat) (h1 : lo ≤ hi) (h2 : hi ≤ buf.length) :
    (readFull r buf lo hi).1.length = buf.length := by
  unfold readFull
  split
  · rename_i h
    apply length_writeAt
    rw [List.length_take]
    omega
  · rename_i h
    apply length_writeAt
    omega

theorem Inv_receiveBlock {d : PieceDownloader} (p : PieceEvent) (hr : d.status = Status.running)
    (h : Inv d) : Inv (receiveBlock d p) := by
  unfold receiveBlock
  split
  · exact ⟨h.reqNodup, h.doneNodup, h.disjoint, h.reqBound, h.doneBound, h.reqLen,
      fun hs => by simp at hs, h.window, h.bufLen⟩
  · rename_i hmem
    have hmem : p.Block.Index ∈ d.requested := by simpa using hmem
    have hle : (d.requested.erase p.Block.Index).length ≤ 10 :=
      le_trans (List.Sublist.length_le (List.erase_sublist _ _)) h.reqLen
    simp only
    split
    · rename_i hb
      split
      · refine ⟨h.reqNodup.erase _, h.doneNodup,
          fun i hi => h.disjoint i (List.mem_of_mem_erase hi),
          fun i hi => h.reqBound i (List.mem_of_mem_erase hi), h.doneBound, hle,
          fun hs => by simp at hs, fun k hk => h.window k (List.mem_of_mem_erase hk), ?_⟩
        simp only
        rw [length_readFull _ _ _ _ hb.1 hb.2]
        exact h.bufLen
      · refine ⟨h.reqNodup.erase _, h.doneNodup.insert, ?_,
          fun i hi => h.reqBound i (List.mem_of_mem_erase hi), ?_, hle, ?_, ?_, ?_⟩
        · intro i hi hd
          have hne : i ≠ p.Block.Index := ((List.Nodup.mem_erase_iff h.reqNodup).1 hi).1
          rcases List.mem_insert_iff.1 hd with h1 | h1
          · exact hne h1
          · exact h.disjoint i (List.mem_of_mem_erase hi) h1
        · intro i hi
          rcases List.mem_insert_iff.1 hi with h1 | h1
          · rw [h1]; exact h.reqBound _ hmem
          · exact h.doneBound i h1
        · intro _ i hi
          simp only at hi ⊢
          by_cases hij : i = p.Block.Index
          · left; rw [hij]; exact List.mem_insert_self _ _
          · rcases h.cursor hr i hi with h2 | h2
            · exact Or.inl (List.mem_insert_of_mem h2)
            · exact Or.inr ((List.mem_erase_of_ne hij).2 h2)
        · intro k hk
          exact lt_of_le_of_lt (pending_insert_le _ _ _) (h.window k (List.mem_of_mem_erase hk))
        · simp only
          rw [length_readFull _ _ _ _ hb.1 hb.2]
          exact h.bufLen
    · exact ⟨h.reqNodup.erase _, h.doneNodup,
        fun i hi => h.disjoint i (List.mem_of_mem_erase hi),
        fun i hi => h.reqBound i (List.mem_of_mem_erase hi), h.doneBound, hle,
        fun hs => by simp at hs, fun k hk => h.window k (List.mem_of_mem_erase hk), h.bufLen⟩

theorem Inv_completeOrRequest {d : PieceDownloader} (h : Inv d) : Inv (completeOrRequest d) := by
  unfold completeOrRequest
  split
  · split
    · exact ⟨h.reqNodup, h.doneNodup, h.disjoint, h.reqBound, h.doneBound, h.reqLen,
        h.cursor, h.window, h.bufLen⟩
    · exact ⟨h.reqNodup, h.doneNodup, h.disjoint, h.reqBound, h.doneBound, h.reqLen,
        fun hs => by simp at hs, h.window, h.bufLen⟩
  · exact Inv_requestBlocks h

theorem Inv_handleReject {d : PieceDownloader} (blk : Block) (h : Inv d) :
    Inv (handleReject d blk) := by
  unfold handleReject
  split
  · exact ⟨h.reqNodup, h.doneNodup, h.disjoint, h.reqBound, h.doneBound, h.reqLen,
      fun hs => by simp at hs, h.window, h.bufLen⟩
  · exact ⟨h.reqNodup.erase _, h.doneNodup,
      fun i hi => h.disjoint i (List.mem_of_mem_erase hi),
      fun i hi => h.reqBound i (List.mem_of_mem_erase hi), h.doneBound,
      le_trans (List.Sublist.length_le (List.erase_sublist _ _)) h.reqLen,
      fun _ i hi => by simp at hi, fun k hk => h.window k (List.mem_of_mem_erase hk), h.bufLen⟩

theorem Inv_step {d : PieceDownloader} (e : Event) (hr : d.status = Status.running)
    (h : Inv d) : Inv (step d e) := by
  cases e with
  | pieceC p =>
    simp only [step, handlePiece]
    split
    · exact Inv_completeOrRequest (Inv_receiveBlock p hr h)
    · exact Inv_receiveBlock p hr h
  | rejectC blk => exact Inv_handleReject blk h
  | chokeC =>
    simp only [step]
    exact ⟨List.nodup_nil, h.doneNodup, fun i hi => absurd hi (List.not_mem_nil i),
      fun i hi => absurd hi (List.not_mem_nil i), h.doneBound, Nat.zero_le _,
      fun _ i hi => absurd hi (Nat.not_lt_zero i), fun k hk => absurd hk (List.not_mem_nil k),
      h.bufLen⟩
  | unchokeC => exact Inv_requestBlocks h
  | closeC =>
    exact ⟨h.reqNodup, h.doneNodup, h.disjoint, h.reqBound, h.doneBound, h.reqLen,
      fun hs => by simp [step] at hs, h.window, h.bufLen⟩

theorem Inv_runEvents (es : List Event) {d : PieceDownloader} (h : Inv d) :
    Inv (runEvents d es) := by
  induction es generalizing d with
  | nil => exact h
  | cons e es ih =>
    unfold runEvents
    split
    · rename_i hr
      exact ih (Inv_step e hr h)
    · exact h

theorem Inv_Run (pi : Piece) (es : List Event) : Inv (Run pi es) :=
  Inv_runEvents es (Inv_requestBlocks (Inv_New pi))

theorem runEvents_of_not_running {d : PieceDownloader} (h : d.status ≠ Status.running)
    (es : List Event) : runEvents d es = d := by
  cases es with
  | nil => rfl
  | cons e es => simp [runEvents, h]

theorem runEvents_append (d : PieceDownloader) (es1 es2 : List Event) :
    runEvents d (es1 ++ es2) = runEvents (runEvents d es1) es2 := by
  induction es1 generalizing d with
  | nil => rfl
  | cons e es ih =>
    simp only [List.cons_append, runEvents]
    split
    · exact ih _
    · rename_i h
      exact (runEvents_of_not_running h es2).symm

theorem Run_append (pi : Piece) (es1 es2 : List Event) :
    Run pi (es1 ++ es2) = runEvents (Run pi es1) es2 :=
  runEvents_append _ es1 es2

theorem writeAt_getElem (buf data : List Nat) (off x : Nat) (h : off + data.length ≤ buf.length) :
    (writeAt buf off data)[x]? =
      if x < off then buf[x]? else if x < off + data.length then data[x - off]? else buf[x]? := by
  unfold writeAt
  have hl : (List.take off buf).length = off := by rw [List.length_take]; omega
  by_cases h1 : x < off
  · rw [if_pos h1, List.append_assoc, List.getElem?_append_left (by omega), List.getElem?_take,
      if_pos h1]
  · rw [if_neg h1, List.append_assoc, List.getElem?_append_right (by omega), hl]
    by_cases h2 : x < off + data.length
    · rw [if_pos h2, List.getElem?_append_left (by omega)]
    · rw [if_neg h2, List.getElem?_append_right (by omega), List.getElem?_drop]
      congr 1
      omega

theorem segment_getElem (buf : List Nat) (b : Block) (t : Nat) :
    (segment buf b)[t]? = if t < b.Length then buf[b.Begin + t]? else none := by
  unfold segment
  rw [List.getElem?_take, List.getElem?_drop]

theorem segment_writeAt_same (buf data : List Nat) (b : Block)
    (h : b.Begin + data.length ≤ buf.length) (hl : b.Length = data.length) :
    segment (writeAt buf b.Begin data) b = data := by
  apply List.ext_getElem?
  intro t
  rw [segment_getElem, writeAt_getElem _ _ _ _ h]
  by_cases ht : t < b.Length
  · rw [if_pos ht, if_neg (by omega), if_pos (by omega)]
    congr 1
    omega
  · rw [if_neg ht, List.getElem?_eq_none (by omega)]

theorem segment_writeAt_other (buf data : List Nat) (off : Nat) (b : Block)
    (h : off + data.length ≤ buf.length)
    (hd : b.Begin + b.Length ≤ off ∨ off + data.length ≤ b.Begin) :
    segment (writeAt buf off data) b = segment buf b := by
  apply List.ext_getElem?
  intro t
  rw [segment_getElem, segment_getElem, writeAt_getElem _ _ _ _ h]
  by_cases ht : t < b.Length
  · rw [if_pos ht, if_pos ht]
    rcases hd with hd | hd
    · rw [if_pos (by omega)]
    · rw [if_neg (by omega), if_neg (by omega)]
  · rw [if_neg ht, if_neg ht]

theorem contiguous_bounds (bs : List Block) (off i : Nat) (b : Block)
    (hc : contiguousFrom off bs = true) (hb : bs[i]? = some b) :
    off ≤ b.Begin ∧ b.Begin + b.Length ≤ off + totalLength bs := by
  induction bs generalizing off i with
  | nil => simp at hb
  | cons a as ih =>
    simp only [contiguousFrom, Bool.and_eq_true, decide_eq_true_eq] at hc
    have htl : totalLength (a :: as) = a.Length + totalLength as := by
      simp [totalLength]
    cases i with
    | zero =>
      simp only [List.getElem?_cons_zero, Option.some.injEq] at hb
      subst hb
      omega
    | succ k =>
      simp only [List.getElem?_cons_succ] at hb
      have := ih (off + a.Length) k hc.2 hb
      omega

theorem contiguous_order (bs : List Block) (off i j : Nat) (b c : Block)
    (hc : contiguousFrom off bs = true) (hb : bs[i]? = some b) (hcj : bs[j]? = some c)
    (hij : i < j) : b.Begin + b.Length ≤ c.Begin := by
  induction bs generalizing off i j with
  | nil => simp at hb
  | cons a as ih =>
    simp only [contiguousFrom, Bool.and_eq_true, decide_eq_true_eq] at hc
    cases j with
    | zero => omega
    | succ l =>
      simp only [List.getElem?_cons_succ] at hcj
      cases i with
      | zero =>
        simp only [List.getElem?_cons_zero, Option.some.injEq] at hb
        subst hb
        have := contiguous_bounds as _ l c hc.2 hcj
        omega
      | succ k =>
        simp only [List.getElem?_cons_succ] at hb
        exact ih (off + a.Length) k l hc.2 hb hcj (by omega)

theorem contiguous_flatten (bs : List Block) (off : Nat) (buf : List Nat)
    (hc : contiguousFrom off bs = true) (hl : buf.length = off + totalLength bs) :
    buf.drop off = (bs.map (segment buf)).flatten := by
  induction bs generalizing off with
  | nil =>
    simp only [totalLength, List.map_nil, List.sum_nil, Nat.add_zero] at hl
    simp [List.drop_eq_nil_of_le (Nat.le_of_eq hl)]
  | cons a as ih =>
    simp only [contiguousFrom, Bool.and_eq_true, decide_eq_true_eq] at hc
    have htl : totalLength (a :: as) = a.Length + totalLength as := by
      simp [totalLength]
    have := ih (off + a.Length) hc.2 (by omega)
    simp only [List.map_cons, List.flatten_cons, ← this, segment, hc.1]
    rw [← List.drop_drop, List.take_append_drop]

theorem receiveBlock_ok (d : PieceDownloader) (p : PieceEvent) (b : Block)
    (hmem : p.Block.Index ∈ d.requested) (hB : p.Piece.Begin = b.Begin)
    (hL : p.Piece.Length = b.Length) (hfit : b.Begin + b.Length ≤ d.buffer.length)
    (h32 : d.buffer.length < 2 ^ 32) (hread : b.Length ≤ p.Piece.Reader.length) :
    receiveBlock d p =
      { d with
        requested := d.requested.erase p.Block.Index
        buffer := writeAt d.buffer b.Begin (p.Piece.Reader.take b.Length)
        error := none
        done := d.done.insert p.Block.Index } := by
  have hmod : (b.Begin + b.Length) % 4294967296 = b.Begin + b.Length :=
    Nat.mod_eq_of_lt (lt_of_le_of_lt hfit h32)
  have hsub : b.Begin + b.Length ≤ p.Piece.Reader.length + b.Begin := by omega
  simp [receiveBlock, hmem, hB, hL, hmod, hfit, readFull, hsub, hread]

theorem mem_of_full (l : List Nat) (n : Nat) (hnd : l.Nodup) (hb : ∀ x, x ∈ l → x < n)
    (hl : l.length = n) : ∀ i, i < n → i ∈ l := by
  intro i hi
  have hsub : l ⊆ List.range n := fun x hx => List.mem_range.2 (hb x hx)
  have hperm := (List.subperm_of_subset hnd hsub).perm_of_length_le (by simp [hl])
  exact hperm.mem_iff.2 (List.mem_range.2 hi)

theorem buffer_eq_assembled (pi : Piece) (data : Nat → List Nat) (buf : List Nat)
    (hpart : contiguousFrom 0 pi.Blocks = true) (hlen : buf.length = totalLength pi.Blocks)
    (hst : ∀ i b, pi.Blocks[i]? = some b → segment buf b = data i) :
    buf = assembled pi data := by
  have h1 := contiguous_flatten pi.Blocks 0 buf hpart (by omega)
  rw [List.drop_zero] at h1
  have h2 : pi.Blocks.map (segment buf) = (List.range pi.Blocks.length).map data := by
    apply List.ext_getElem?
    intro i
    by_cases hi : i < pi.Blocks.length
    · have hb : pi.Blocks[i]? = some pi.Blocks[i] := List.getElem?_eq_getElem hi
      simp [List.getElem?_map, hb, List.getElem?_range hi, hst i _ hb]
    · rw [List.getElem?_eq_none (by simpa using hi), List.getElem?_eq_none (by simpa using hi)]
  rw [assembled, ← h2]
  exact h1

theorem Good_receiveBlock {pi : Piece} {data : Nat → List Nat} {d : PieceDownloader}
    {p : PieceEvent} (hpart : Partitioned pi) (h32 : pi.Length < 2 ^ 32)
    (hg : Good pi data d) (hmem : p.Block.Index ∈ d.requested) (hdel : Delivers pi data p) :
    Good pi data (receiveBlock d p) ∧
      (receiveBlock d p).done.length = d.done.length + 1 := by
  obtain ⟨b, hb, hB, hL, hread, hdata⟩ := hdel
  have hbl : d.buffer.length = pi.Length := by rw [hg.inv.bufLen, hg.piece]
  have hbd := contiguous_bounds pi.Blocks 0 _ b hpart.1 hb
  have hfit : b.Begin + b.Length ≤ d.buffer.length := by rw [hbl, hpart.2]; omega
  have hnd : p.Block.Index ∉ d.done := hg.inv.disjoint _ hmem
  have hinv := Inv_receiveBlock p hg.running hg.inv
  have htk : (p.Piece.Reader.take b.Length).length = b.Length := by
    rw [List.length_take]; omega
  rw [receiveBlock_ok d p b hmem hB hL hfit (by rw [hbl]; exact h32) hread] at hinv ⊢
  refine ⟨⟨hinv, hg.piece, hg.running, rfl, hg.noWrite, ?_⟩, ?_⟩
  · intro i c hi hc
    simp only at hi ⊢
    rcases List.mem_insert_iff.1 hi with h1 | h1
    · subst h1
      rw [hb] at hc
      cases hc
      rw [segment_writeAt_same _ _ _ (by omega) htk.symm]
      exact hdata
    · have hne : i ≠ p.Block.Index := fun h => hnd (h ▸ h1)
      rw [segment_writeAt_other _ _ _ _ (by omega)]
      · exact hg.stored i c h1 hc
      · rw [htk]
        rcases Nat.lt_or_gt_of_ne hne with hlt | hgt
        · exact Or.inl (contiguous_order pi.Blocks 0 _ _ c b hpart.1 hc hb hlt)
        · exact Or.inr (contiguous_order pi.Blocks 0 _ _ b c hpart.1 hb hc hgt)
  · simp only [List.length_insert_of_not_mem hnd]

theorem Good_requestBlocks {pi : Piece} {data : Nat → List Nat} {d : PieceDownloader}
    (hg : Good pi data d) : Good pi data (requestBlocks d) ∧
      (requestBlocks d).done = d.done := by
  obtain ⟨h1, h2, h3, h4, h5, h6⟩ := requestLoop_frame
    (d.Piece.Blocks.length % 2 ^ 32 - d.nextBlockIndex) d
  refine ⟨⟨Inv_requestBlocks hg.inv, ?_, ?_, ?_, ?_, ?_⟩, h2⟩
  · exact h1.trans hg.piece
  · exact h5.trans hg.running
  · exact h4.trans hg.noError
  · exact h6.trans hg.noWrite
  · intro i b hi hb
    unfold requestBlocks at hi ⊢
    rw [h2] at hi
    rw [h3]
    exact hg.stored i b hi hb

theorem Run_snoc (pi : Piece) (es : List Event) (e : Event)
    (hr : (Run pi es).status = Status.running) :
    Run pi (es ++ [e]) = step (Run pi es) e := by
  rw [Run_append]
  simp [runEvents, hr]

theorem take_succ_map (ps : List PieceEvent) (j : Nat) (hj : j < ps.length) :
    (ps.take (j + 1)).map Event.pieceC = (ps.take j).map Event.pieceC ++ [Event.pieceC ps[j]] := by
  rw [List.take_succ, List.getElem?_eq_getElem hj, List.map_append]
  rfl

/-- Before the last block arrives the run is still going, and `done` holds one
index per event received. -/
theorem Good_before_last (pi : Piece) (data : Nat → List Nat) (ps : List PieceEvent)
    (hpart : Partitioned pi) (h32 : pi.Length < 2 ^ 32)
    (hlen : ps.length = pi.Blocks.length)
    (hreq : ∀ j (hj : j < ps.length),
      ps[j].Block.Index ∈ (Run pi ((ps.take j).map Event.pieceC)).requested)
    (hdel : ∀ p, p ∈ ps → Delivers pi data p) :
    ∀ j, j < pi.Blocks.length →
      Good pi data (Run pi ((ps.take j).map Event.pieceC)) ∧
      (Run pi ((ps.take j).map Event.pieceC)).done.length = j := by
  intro j
  induction j with
  | zero =>
    intro _
    have h0 : Good pi data (New pi) :=
      ⟨Inv_New pi, rfl, rfl, rfl, rfl, fun i b hi _ => by simp [New] at hi⟩
    have := Good_requestBlocks h0
    simp only [List.take_zero, List.map_nil, Run, runEvents]
    refine ⟨this.1, ?_⟩
    rw [this.2]
    rfl
  | succ j ih =>
    intro hj
    obtain ⟨hg, hd⟩ := ih (by omega)
    have hjl : j < ps.length := by omega
    have hrb := Good_receiveBlock hpart h32 hg (hreq j hjl) (hdel _ (List.getElem_mem hjl))
    rw [take_succ_map ps j hjl, Run_snoc _ _ _ hg.running]
    simp only [step, handlePiece, hrb.1.running, if_true]
    have hnot : allDone (receiveBlock (Run pi ((ps.take j).map Event.pieceC)) ps[j]) = false := by
      simp only [allDone, hrb.2, hd, hrb.1.piece, decide_eq_false_iff_not]
      omega
    simp only [completeOrRequest, hnot, Bool.false_eq_true, if_false]
    have := Good_requestBlocks hrb.1
    refine ⟨this.1, ?_⟩
    rw [this.2, hrb.2, hd]

/-- C1: a piece of N ≥ 1 blocks that partition it; only block-data events, one
per block, each for an index that is in `requested` when it arrives, each
with its block's offset and length and a reader that yields the block's bytes;
the joined bytes pass `VerifyHash` and the sink write succeeds.  Then `Run` is
still in its loop before the N-th block, returns on it with `Result.Error`
nil, and the sink got exactly one write: the whole buffer, which is the blocks'
data joined in block-index order. -/
theorem run_all_blocks_succeeds (pi : Piece) (data : Nat → List Nat) (ps : List PieceEvent)
    (hN : 1 ≤ pi.Blocks.length) (hpart : Partitioned pi) (h32 : pi.Length < 2 ^ 32)
    (hlen : ps.length = pi.Blocks.length)
    (hreq : ∀ j (hj : j < ps.length),
      ps[j].Block.Index ∈ (Run pi ((ps.take j).map Event.pieceC)).requested)
    (hdel : ∀ p, p ∈ ps → Delivers pi data p)
    (hhash : pi.VerifyHash (assembled pi data) = true)
    (hsink : pi.DataWriteFails (assembled pi data) = false) :
    (∀ j, j < pi.Blocks.length →
      (Run pi ((ps.take j).map Event.pieceC)).status = Status.running) ∧
    (Run pi (ps.map Event.pieceC)).status = Status.returned ∧
    (Run pi (ps.map Event.pieceC)).error = none ∧
    (Run pi (ps.map Event.pieceC)).written = [(Run pi (ps.map Event.pieceC)).buffer] ∧
    (Run pi (ps.map Event.pieceC)).buffer = assembled pi data := by
  have hpre := Good_before_last pi data ps hpart h32 hlen hreq hdel
  refine ⟨fun j hj => (hpre j hj).1.running, ?_⟩
  obtain ⟨n, hn⟩ : ∃ n, pi.Blocks.length = n + 1 := ⟨pi.Blocks.length - 1, by omega⟩
  obtain ⟨hg, hd⟩ := hpre n (by omega)
  have hnl : n < ps.length := by omega
  have hrb := Good_receiveBlock hpart h32 hg (hreq n hnl) (hdel _ (List.getElem_mem hnl))
  have hps : ps.map Event.pieceC = (ps.take n).map Event.pieceC ++ [Event.pieceC ps[n]] := by
    rw [← take_succ_map ps n hnl, List.take_of_length_le (by omega)]
  have hlenD : (receiveBlock (Run pi ((ps.take n).map Event.pieceC)) ps[n]).done.length =
      pi.Blocks.length := by rw [hrb.2, hd, hn]
  have hall : allDone (receiveBlock (Run pi ((ps.take n).map Event.pieceC)) ps[n]) = true := by
    simp only [allDone, hlenD, hrb.1.piece, decide_True]
  have hbuf : (receiveBlock (Run pi ((ps.take n).map Event.pieceC)) ps[n]).buffer =
      assembled pi data := by
    apply buffer_eq_assembled pi data _ hpart.1
    · rw [hrb.1.inv.bufLen, hrb.1.piece, hpart.2]
    · intro i b hb
      apply hrb.1.stored i b _ hb
      apply mem_of_full _ _ hrb.1.inv.doneNodup _ hlenD
      · exact ((List.getElem?_eq_some_iff).1 hb).1
      · intro x hx
        have := hrb.1.inv.doneBound x hx
        rw [hrb.1.piece] at this
        exact lt_of_lt_of_le this (Nat.mod_le _ _)
  rw [hps, Run_snoc _ _ _ hg.running]
  simp only [step, handlePiece, hrb.1.running, if_true, completeOrRequest, hall, hbuf,
    hrb.1.piece, hhash, hsink, Bool.true_eq_false, Bool.false_eq_true, if_false,
    hrb.1.noWrite, List.nil_append, and_self]

theorem run_all_blocks_succeeds_witness :
    (Run twoBlockPiece [evBlock0, evBlock1]).status = Status.returned ∧
    (Run twoBlockPiece [evBlock0, evBlock1]).error = none ∧
    (Run twoBlockPiece [evBlock0, evBlock1]).written = [[1, 2, 3, 4, 5, 6, 7, 8]] := by
  have h := run_all_blocks_succeeds twoBlockPiece twoBlockData
    [{ Block := { Index := 0, Begin := 0, Length := 4 },
       Piece := { Begin := 0, Length := 4, Reader := [1, 2, 3, 4] } },
     { Block := { Index := 1, Begin := 4, Length := 4 },
       Piece := { Begin := 4, Length := 4, Reader := [5, 6, 7, 8] } }]
    (by decide) ⟨by decide, by decide⟩ (by decide) (by decide) (by decide)
    (by
      intro p hp
      simp only [List.mem_cons, List.mem_singleton, List.not_mem_nil, or_false] at hp
      rcases hp with rfl | rfl
      · exact ⟨_, rfl, rfl, rfl, by decide, rfl⟩
      · exact ⟨_, rfl, rfl, rfl, by decide, rfl⟩)
    (by decide) (by decide)
  refine ⟨h.2.1, h.2.2.1, ?_⟩
  have h4 := h.2.2.2.1
  rw [h.2.2.2.2] at h4
  exact h4

/-- C2 (code evaluated at the failing input): after block 1 and then a block 0
whose bytes fail the digest check, `Run` is still in its loop with the
corrupt-piece error pending, and a following reject replaces that error. -/
theorem corrupt_piece_keeps_running :
    (Run twoBlockPiece [evBlock1, evBadBlock0]).status = Status.running ∧
    (Run twoBlockPiece [evBlock1, evBadBlock0]).error = some RunError.corruptPiece ∧
    (Run twoBlockPiece [evBlock1, evBadBlock0, evReject1]).status = Status.returned ∧
    (Run twoBlockPiece [evBlock1, evBadBlock0, evReject1]).error =
      some (RunError.unrequestedReject { Index := 1, Begin := 4, Length := 4 }) := by
  decide

theorem requestBlocks_frame (d : PieceDownloader) :
    (requestBlocks d).Piece = d.Piece ∧ (requestBlocks d).done = d.done ∧
    (requestBlocks d).buffer = d.buffer ∧ (requestBlocks d).error = d.error ∧
    (requestBlocks d).status = d.status ∧ (requestBlocks d).written = d.written :=
  requestLoop_frame _ d

theorem receiveBlock_frame (d : PieceDownloader) (p : PieceEvent) :
    (receiveBlock d p).Piece = d.Piece ∧ (receiveBlock d p).written = d.written ∧
    (receiveBlock d p).sent = d.sent ∧
    (receiveBlock d p).nextBlockIndex = d.nextBlockIndex := by
  unfold receiveBlock
  split
  · simp
  · simp only
    split
    · split <;> simp
    · simp

theorem completeOrRequest_Piece (d : PieceDownloader) : (completeOrRequest d).Piece = d.Piece := by
  unfold completeOrRequest
  split
  · split <;> rfl
  · exact (requestBlocks_frame d).1

theorem step_Piece (d : PieceDownloader) (e : Event) : (step d e).Piece = d.Piece := by
  cases e with
  | pieceC p =>
    simp only [step, handlePiece]
    split
    · rw [completeOrRequest_Piece, (receiveBlock_frame d p).1]
    · exact (receiveBlock_frame d p).1
  | rejectC blk =>
    simp only [step, handleReject]
    split <;> rfl
  | chokeC => rfl
  | unchokeC => exact (requestBlocks_frame d).1
  | closeC => rfl

theorem runEvents_Piece (d : PieceDownloader) (es : List Event) :
    (runEvents d es).Piece = d.Piece := by
  induction es generalizing d with
  | nil => rfl
  | cons e es ih =>
    unfold runEvents
    split
    · rw [ih, step_Piece]
    · rfl

theorem Run_Piece (pi : Piece) (es : List Event) : (Run pi es).Piece = pi := by
  unfold Run
  rw [runEvents_Piece, (requestBlocks_frame _).1]
  rfl

theorem requestLoop_of_all_done (fuel : Nat) (d : PieceDownloader)
    (h : ∀ i, i < d.Piece.Blocks.length % 2 ^ 32 → i ∈ d.done) :
    (requestLoop fuel d).requested = d.requested ∧ (requestLoop fuel d).sent = d.sent := by
  have key := requestLoop_induct
    (fun x => x.Piece = d.Piece ∧ x.done = d.done ∧ x.requested = d.requested ∧ x.sent = d.sent)
    (by
      intro x hc _ hx
      obtain ⟨h1, h2, h3, h4⟩ := hx
      have hlt := ((requestCond_iff x).1 hc).1
      rw [h1] at hlt
      have hmem : x.nextBlockIndex ∈ x.done := by rw [h2]; exact h _ hlt
      simp only [requestBodyOk, hmem, if_true]
      exact ⟨h1, h2, h3, h4⟩)
    fuel d ⟨rfl, rfl, rfl, rfl⟩
  exact ⟨key.2.2.1, key.2.2.2⟩

theorem Finished_step {d : PieceDownloader} (e : Event) (h : Finished d) :
    Finished (step d e) := by
  obtain ⟨hw, hq, hall⟩ := h
  cases e with
  | pieceC p =>
    simp only [step, handlePiece, receiveBlock, hq, List.not_mem_nil, not_false_eq_true, if_true]
    simp only [reduceCtorEq, if_false]
    exact ⟨hw, rfl, hall⟩
  | rejectC blk =>
    simp only [step, handleReject, hq, List.not_mem_nil, not_false_eq_true, if_true]
    exact ⟨hw, rfl, hall⟩
  | chokeC => exact ⟨hw, rfl, hall⟩
  | unchokeC =>
    obtain ⟨h1, h2, _, _, _, h6⟩ := requestBlocks_frame d
    refine ⟨h6.trans hw, ?_, ?_⟩
    · exact ((requestLoop_of_all_done _ d hall).1).trans hq
    · simp only [step]
      rw [h1, h2]
      exact hall
  | closeC => exact ⟨hw, hq, hall⟩

theorem Finished_runEvents (es : List Event) {d : PieceDownloader} (h : Finished d) :
    Finished (runEvents d es) := by
  induction es generalizing d with
  | nil => exact h
  | cons e es ih =>
    unfold runEvents
    split
    · exact ih (Finished_step e h)
    · exact h

theorem receiveBlock_error (d : PieceDownloader) (p : PieceEvent)
    (h : d.error ≠ some RunError.corruptPiece) :
    (receiveBlock d p).error ≠ some RunError.corruptPiece := by
  unfold receiveBlock readFull
  split
  · simp
  · simp only
    split
    · split
      · split <;> simp
      · split <;> simp
    · exact h

/-- The states after `allDone` holds with the invariant: every reachable
index is done and nothing is requested. -/
theorem all_done_of_allDone {d : PieceDownloader} (hi : Inv d) (ha : allDone d = true) :
    d.requested = [] ∧ ∀ i, i < d.Piece.Blocks.length % 2 ^ 32 → i ∈ d.done := by
  have hlen : d.done.length = d.Piece.Blocks.length := by simpa [allDone] using ha
  have hfull := mem_of_full d.done d.Piece.Blocks.length hi.doneNodup
    (fun x hx => lt_of_lt_of_le (hi.doneBound x hx) (Nat.mod_le _ _)) hlen
  refine ⟨?_, fun i h => hfull i (lt_of_lt_of_le h (Nat.mod_le _ _))⟩
  apply List.eq_nil_iff_forall_not_mem.2
  intro a ha
  exact hi.disjoint a ha (hfull a (lt_of_lt_of_le (hi.reqBound a ha) (Nat.mod_le _ _)))

theorem SinkInv_completeOrRequest {d : PieceDownloader} (hi : Inv d) (hw : d.written = [])
    (he : d.error ≠ some RunError.corruptPiece) :
    SinkInv (completeOrRequest d) ∧ CorruptInv (completeOrRequest d) := by
  unfold completeOrRequest
  split
  · rename_i ha
    split
    · refine ⟨Or.inl hw, fun _ => ?_⟩
      exact ⟨hw, (all_done_of_allDone hi ha).1, (all_done_of_allDone hi ha).2⟩
    · rename_i hv
      refine ⟨Or.inr ⟨rfl, by simp [hw], by simpa using hv, ?_⟩, ?_⟩
      · simp only
        split <;> simp
      · intro hc
        simp only at hc
        split at hc <;> simp at hc
  · obtain ⟨_, _, _, h4, _, h6⟩ := requestBlocks_frame d
    exact ⟨Or.inl (h6.trans hw), fun hc => absurd (h4 ▸ hc) he⟩

theorem SinkInv_step {d : PieceDownloader} (e : Event) (hr : d.status = Status.running)
    (hi : Inv d) (hs : SinkInv d) (hc : CorruptInv d) :
    SinkInv (step d e) ∧ CorruptInv (step d e) := by
  have hw : d.written = [] := by
    rcases hs with h | h
    · exact h
    · rw [hr] at h
      exact absurd h.1 (by simp)
  by_cases he : d.error = some RunError.corruptPiece
  · have hf := Finished_step e (hc he)
    exact ⟨Or.inl hf.1, fun _ => hf⟩
  · cases e with
    | pieceC p =>
      simp only [step, handlePiece]
      split
      · rename_i hr1
        exact SinkInv_completeOrRequest (Inv_receiveBlock p hr hi)
          ((receiveBlock_frame d p).2.1.trans hw) (receiveBlock_error d p he)
      · exact ⟨Or.inl ((receiveBlock_frame d p).2.1.trans hw),
          fun h => absurd h (receiveBlock_error d p he)⟩
    | rejectC blk =>
      simp only [step, handleReject]
      split
      · exact ⟨Or.inl hw, fun h => by simp at h⟩
      · exact ⟨Or.inl hw, fun h => absurd h he⟩
    | chokeC => exact ⟨Or.inl hw, fun h => absurd h he⟩
    | unchokeC =>
      obtain ⟨_, _, _, h4, _, h6⟩ := requestBlocks_frame d
      exact ⟨Or.inl (h6.trans hw), fun h => absurd (h4 ▸ h) he⟩
    | closeC => exact ⟨Or.inl hw, fun h => absurd h he⟩

theorem SinkInv_runEvents (es : List Event) {d : PieceDownloader}
    (hi : Inv d) (hs : SinkInv d) (hc : CorruptInv d) :
    SinkInv (runEvents d es) ∧ CorruptInv (runEvents d es) := by
  induction es generalizing d with
  | nil => exact ⟨hs, hc⟩
  | cons e es ih =>
    unfold runEvents
    split
    · rename_i hr
      have := SinkInv_step e hr hi hs hc
      exact ih (Inv_step e hr hi) this.1 this.2
    · exact ⟨hs, hc⟩

theorem SinkInv_Run (pi : Piece) (es : List Event) :
    SinkInv (Run pi es) ∧ CorruptInv (Run pi es) := by
  obtain ⟨_, _, _, h4, _, h6⟩ := requestBlocks_frame (New pi)
  apply SinkInv_runEvents es (Inv_requestBlocks (Inv_New pi))
  · exact Or.inl h6
  · intro h
    rw [h4] at h
    simp [New] at h

/-- C3: for every event sequence the sink is written at most once; a write
happens only as the last act of `Run`, with the whole buffer (`Piece.Length`
bytes), which has just passed `VerifyHash`; and once a digest check has failed
(the corrupt-piece error is set) no continuation of the events writes the sink. -/
theorem sink_written_at_most_once (pi : Piece) (es : List Event) :
    (Run pi es).written.length ≤ 1 ∧
    (∀ w, w ∈ (Run pi es).written →
      (Run pi es).status = Status.returned ∧ w = (Run pi es).buffer ∧
      w.length = pi.Length ∧ pi.VerifyHash w = true) ∧
    (∀ es1 es2, es = es1 ++ es2 → (Run pi es1).error = some RunError.corruptPiece →
      (Run pi es).written = []) := by
  refine ⟨?_, ?_, ?_⟩
  · rcases (SinkInv_Run pi es).1 with h | h
    · simp [h]
    · simp [h.2.1]
  · intro w hw
    rcases (SinkInv_Run pi es).1 with h | h
    · rw [h] at hw
      simp at hw
    · rw [h.2.1] at hw
      have hwb : w = (Run pi es).buffer := by simpa using hw
      have hl := (Inv_Run pi es).bufLen
      rw [Run_Piece] at hl
      have hv := h.2.2.1
      rw [Run_Piece] at hv
      subst hwb
      exact ⟨h.1, rfl, hl, hv⟩
  · intro es1 es2 hes hc
    rw [hes, Run_append]
    exact (Finished_runEvents es2 ((SinkInv_Run pi es1).2 hc)).1

theorem sink_written_at_most_once_witness :
    (Run twoBlockPiece [evBlock1, evBadBlock0, Event.unchokeC, evBlock0]).written = [] :=
  (sink_written_at_most_once twoBlockPiece [evBlock1, evBadBlock0, Event.unchokeC, evBlock0]).2.2
    [evBlock1, evBadBlock0] [Event.unchokeC, evBlock0] rfl (by decide)

/-- C4: in any state, a block-data event or a reject event whose block index
is not in `requested` makes `Run` return at that event with a non-nil error;
the handler changes nothing else (no message sent, `requested`, `done`, buffer
and sink log as before), and no later event is handled, so nothing is sent
afterwards. -/
theorem unrequested_ends_run (d : PieceDownloader) (p : PieceEvent) (blk : Block)
    (es : List Event) :
    (p.Block.Index ∉ d.requested →
      step d (Event.pieceC p) =
        { d with error := some (RunError.unrequestedBlock p.Block), status := Status.returned } ∧
      runEvents (step d (Event.pieceC p)) es = step d (Event.pieceC p)) ∧
    (blk.Index ∉ d.requested →
      step d (Event.rejectC blk) =
        { d with error := some (RunError.unrequestedReject blk), status := Status.returned } ∧
      runEvents (step d (Event.rejectC blk)) es = step d (Event.rejectC blk)) := by
  constructor
  · intro h
    have h1 : step d (Event.pieceC p) =
        { d with error := some (RunError.unrequestedBlock p.Block),
                 status := Status.returned } := by
      simp [step, handlePiece, receiveBlock, h]
    refine ⟨h1, runEvents_of_not_running ?_ es⟩
    rw [h1]
    simp
  · intro h
    have h1 : step d (Event.rejectC blk) =
        { d with error := some (RunError.unrequestedReject blk),
                 status := Status.returned } := by
      simp [step, handleReject, h]
    refine ⟨h1, runEvents_of_not_running ?_ es⟩
    rw [h1]
    simp

theorem unrequested_ends_run_witness :
    (step (Run twoBlockPiece [evBlock0]) evBlock0).status = Status.returned ∧
    (step (Run twoBlockPiece [evBlock0]) evBlock0).error =
      some (RunError.unrequestedBlock { Index := 0, Begin := 0, Length := 4 }) ∧
    (step (Run twoBlockPiece [evBlock0]) evBlock0).sent = (Run twoBlockPiece [evBlock0]).sent := by
  have h := (unrequested_ends_run (Run twoBlockPiece [evBlock0])
    { Block := { Index := 0, Begin := 0, Length := 4 },
      Piece := { Begin := 0, Length := 4, Reader := [1, 2, 3, 4] } }
    { Index := 0, Begin := 0, Length := 4 } []).1 (by decide)
  have h1 : step (Run twoBlockPiece [evBlock0]) evBlock0 = _ := h.1
  rw [h1]
  exact ⟨rfl, rfl, rfl⟩

theorem requestLoop_mono (fuel : Nat) (d : PieceDownloader) :
    (∀ i, i ∈ d.requested → i ∈ (requestLoop fuel d).requested) ∧
    ∃ b, (requestLoop fuel d).sent = d.sent ++ b := by
  apply requestLoop_induct
    (fun x => (∀ i, i ∈ d.requested → i ∈ x.requested) ∧ ∃ b, x.sent = d.sent ++ b)
  · intro x _ _ hx
    obtain ⟨h1, b, h2⟩ := hx
    unfold requestBodyOk
    split
    · exact ⟨h1, b, h2⟩
    · refine ⟨fun i hi => List.mem_insert_of_mem (h1 i hi), b ++ [requestMsg x.Piece x.nextBlockIndex], ?_⟩
      simp only [h2, List.append_assoc]
  · exact ⟨fun _ hi => hi, [], by simp⟩

/-- A scan that starts at or below a block `k` that is neither done nor
requested and has fewer than ten not-done blocks below it reaches `k`,
requests it and sends its message. -/
theorem requestLoop_reaches (k : Nat) (fuel : Nat) (d : PieceDownloader)
    (hi : Inv d) (hr : d.status = Status.running) (hn : d.nextBlockIndex ≤ k)
    (hkr : k ∉ d.requested) (hkd : k ∉ d.done) (hkb : k < d.Piece.Blocks.length % 2 ^ 32)
    (hkw : pending d.done k < 10) (hf : k + 1 - d.nextBlockIndex ≤ fuel) :
    k ∈ (requestLoop fuel d).requested ∧
    ∃ a b, (requestLoop fuel d).sent = d.sent ++ a ++ [requestMsg d.Piece k] ++ b := by
  induction fuel generalizing d with
  | zero => omega
  | succ n ih =>
    have hlen : d.requested.length < 10 := by
      have := length_le_of_window d.done (k :: d.requested) 10
        (List.nodup_cons.2 ⟨hkr, hi.reqNodup⟩)
        (by
          intro x hx
          rcases List.mem_cons.1 hx with h | h
          · rw [h]; exact ⟨hkd, hkw⟩
          · exact ⟨hi.disjoint x h, hi.window x h⟩)
      simp only [List.length_cons] at this
      omega
    have hc : requestCond d = true :=
      (requestCond_iff d).2 ⟨lt_of_le_of_lt hn hkb, hlen⟩
    have hinv := Inv_requestBodyOk hc hr hi
    unfold requestLoop
    rw [if_pos ⟨hc, hr⟩, requestBody_eq hc]
    rcases Nat.lt_or_eq_of_le hn with hlt | heq
    · have hne : d.nextBlockIndex ≠ k := Nat.ne_of_lt hlt
      obtain ⟨f1, f2, _, _, f5, _, f7⟩ := requestBodyOk_frame d
      have hkr2 : k ∉ (requestBodyOk d).requested := by
        unfold requestBodyOk
        split
        · exact hkr
        · intro h
          rcases List.mem_insert_iff.1 h with h | h
          · exact hne h.symm
          · exact hkr h
      have := ih (requestBodyOk d) hinv (f5.trans hr) (by rw [f7]; omega) hkr2
        (by rw [f2]; exact hkd) (by rw [f1]; exact hkb) (by rw [f2]; exact hkw)
        (by rw [f7]; omega)
      refine ⟨this.1, ?_⟩
      obtain ⟨a, b, hab⟩ := this.2
      rw [f1] at hab
      have hs : ∃ c, (requestBodyOk d).sent = d.sent ++ c := by
        unfold requestBodyOk
        split
        · exact ⟨[], by simp⟩
        · exact ⟨_, rfl⟩
      obtain ⟨c, hcs⟩ := hs
      refine ⟨c ++ a, b, ?_⟩
      rw [hab, hcs]
      simp only [List.append_assoc]
    · have hbody : requestBodyOk d =
          { d with
            requested := d.requested.insert k
            sent := d.sent ++ [requestMsg d.Piece k]
            nextBlockIndex := k + 1 } := by
        unfold requestBodyOk
        rw [heq, if_neg hkd]
      obtain ⟨m1, b, m2⟩ := requestLoop_mono n (requestBodyOk d)
      refine ⟨m1 k (by rw [hbody]; exact List.mem_insert_self _ _), [], b, ?_⟩
      rw [m2, hbody]
      simp

theorem Waiting_requestBlocks {k : Nat} {d : PieceDownloader} (h : Waiting k d) :
    k ∈ (requestBlocks d).requested ∧
    ∃ a b, (requestBlocks d).sent = d.sent ++ a ++ [requestMsg d.Piece k] ++ b := by
  apply requestLoop_reaches k _ d h.inv h.running (by rw [h.cursor]; exact Nat.zero_le _)
    h.notRequested h.notDone h.bound h.window
  have := h.bound
  omega

theorem Waiting_reject {k : Nat} {d : PieceDownloader} (blk : Block)
    (hi : Inv d) (hr : d.status = Status.running) (hk : blk.Index = k)
    (hmem : blk.Index ∈ d.requested) : Waiting k (step d (Event.rejectC blk)) := by
  have hinv := Inv_step (Event.rejectC blk) hr hi
  simp only [step, handleReject, hmem, not_true_eq_false, if_false] at hinv ⊢
  subst hk
  exact ⟨hinv, hr, rfl, fun h => ((List.Nodup.mem_erase_iff hi.reqNodup).1 h).1 rfl,
    hi.disjoint _ hmem, hi.reqBound _ hmem, hi.window _ hmem⟩

/-- Rejects and chokes that do not end the run keep `k` waiting. -/
theorem Waiting_step {k : Nat} {d : PieceDownloader} (e : Event) (h : Waiting k d)
    (he : (∃ blk, e = Event.rejectC blk) ∨ e = Event.chokeC)
    (hr : (step d e).status = Status.running) : Waiting k (step d e) := by
  have hinv := Inv_step e h.running h.inv
  rcases he with ⟨blk, rfl⟩ | rfl
  · simp only [step, handleReject] at hinv hr ⊢
    split at hr
    · simp at hr
    · rename_i hm
      simp only [hm, if_false] at hinv ⊢
      exact ⟨hinv, hr, rfl, fun hx => h.notRequested (List.mem_of_mem_erase hx), h.notDone,
        h.bound, h.window⟩
  · simp only [step] at hinv ⊢
    exact ⟨hinv, h.running, rfl, List.not_mem_nil k, h.notDone, h.bound, h.window⟩

theorem Waiting_runEvents {k : Nat} (rs : List Event) {d : PieceDownloader} (h : Waiting k d)
    (he : ∀ e, e ∈ rs → (∃ blk, e = Event.rejectC blk) ∨ e = Event.chokeC)
    (hr : (runEvents d rs).status = Status.running) : Waiting k (runEvents d rs) := by
  induction rs generalizing d with
  | nil => exact h
  | cons e es ih =>
    simp only [runEvents, h.running, if_true] at hr ⊢
    have hs : (step d e).status = Status.running := by
      by_contra hne
      rw [runEvents_of_not_running hne] at hr
      exact hne hr
    exact ih (Waiting_step e h (he e (List.mem_cons_self _ _)) hs)
      (fun e' he' => he e' (List.mem_cons_of_mem _ he')) hr

theorem Waiting_receiveBlock {k : Nat} {d : PieceDownloader} (p : PieceEvent) (h : Waiting k d)
    (hr : (receiveBlock d p).status = Status.running) :
    Waiting k (receiveBlock d p) ∧ allDone (receiveBlock d p) = false := by
  have hinv := Inv_receiveBlock p h.running h.inv
  have hP := (receiveBlock_frame d p).1
  have hN := (receiveBlock_frame d p).2.2.2
  have hkey : k ∉ (receiveBlock d p).requested ∧ k ∉ (receiveBlock d p).done ∧
      pending (receiveBlock d p).done k < 10 := by
    unfold receiveBlock at hr ⊢
    split at hr
    · simp at hr
    · rename_i hm
      have hm : p.Block.Index ∈ d.requested := by simpa using hm
      have hne : k ≠ p.Block.Index := fun hx => h.notRequested (hx ▸ hm)
      simp only [hm, not_true_eq_false, if_false] at hr ⊢
      split at hr
      · rename_i hb
        simp only [hb, and_self, if_true] at hr ⊢
        split at hr
        · simp at hr
        · rename_i hrd
          simp only [hrd, if_false]
          refine ⟨fun hx => h.notRequested (List.mem_of_mem_erase hx), ?_,
            lt_of_le_of_lt (pending_insert_le _ _ _) h.window⟩
          intro hx
          rcases List.mem_insert_iff.1 hx with h1 | h1
          · exact hne h1
          · exact h.notDone h1
      · simp at hr
  have hw : Waiting k (receiveBlock d p) :=
    ⟨hinv, hr, by rw [hN]; exact h.cursor, hkey.1, hkey.2.1, by rw [hP]; exact h.bound, hkey.2.2⟩
  refine ⟨hw, ?_⟩
  cases ha : allDone (receiveBlock d p) with
  | false => rfl
  | true => exact absurd ((all_done_of_allDone hinv ha).2 k hw.bound) hw.notDone

theorem receiveBlock_done (d : PieceDownloader) (p : PieceEvent) :
    (receiveBlock d p).done = d.done ∨
    (receiveBlock d p).done = d.done.insert p.Block.Index := by
  unfold receiveBlock
  split
  · exact Or.inl rfl
  · simp only
    split
    · split
      · exact Or.inl rfl
      · exact Or.inr rfl
    · exact Or.inl rfl

theorem completeOrRequest_done (d : PieceDownloader) : (completeOrRequest d).done = d.done := by
  unfold completeOrRequest
  split
  · split <;> rfl
  · exact (requestBlocks_frame d).2.1

theorem handlePiece_done (d : PieceDownloader) (p : PieceEvent) :
    (handlePiece d p).done = (receiveBlock d p).done := by
  unfold handlePiece
  simp only
  split
  · exact completeOrRequest_done _
  · rfl

/-- An index enters `done` only in the handler of a block-data event for it. -/
theorem done_grows_by_piece (d : PieceDownloader) (e : Event) (k : Nat)
    (h1 : k ∉ d.done) (h2 : k ∈ (step d e).done) :
    ∃ p, e = Event.pieceC p ∧ p.Block.Index = k := by
  cases e with
  | pieceC p =>
    refine ⟨p, rfl, ?_⟩
    simp only [step, handlePiece_done] at h2
    rcases receiveBlock_done d p with h | h
    · rw [h] at h2
      exact absurd h2 h1
    · rw [h] at h2
      rcases List.mem_insert_iff.1 h2 with h3 | h3
      · exact h3.symm
      · exact absurd h3 h1
  | rejectC blk =>
    simp only [step, handleReject] at h2
    split at h2 <;> exact absurd h2 h1
  | chokeC => exact absurd h2 h1
  | unchokeC =>
    simp only [step, (requestBlocks_frame d).2.1] at h2
    exact absurd h2 h1
  | closeC => exact absurd h2 h1

theorem step_piece_request (d : PieceDownloader) (p : PieceEvent)
    (h1 : (receiveBlock d p).status = Status.running) (h2 : allDone (receiveBlock d p) = false) :
    step d (Event.pieceC p) = requestBlocks (receiveBlock d p) := by
  simp only [step, handlePiece, h1, if_true, completeOrRequest, h2, Bool.false_eq_true, if_false]

/-- C5: in a reachable running state a reject for a block in `requested`
takes it out of `requested`, and it is not in `done`; after any further
rejects and chokes that leave the run going, the next execution of
`requestBlocks` (on an unchoke, or in the handler of a block-data event whose
read succeeds) sends the request message of that block and puts its index
back in `requested`; the index enters `done` only by a block-data event
for it. -/
theorem rejected_block_requested_again (pi : Piece) (es rs : List Event) (blk : Block)
    (hrun : (Run pi es).status = Status.running)
    (hmem : blk.Index ∈ (Run pi es).requested)
    (hrs : ∀ e, e ∈ rs → (∃ b, e = Event.rejectC b) ∨ e = Event.chokeC)
    (hgo : (runEvents (step (Run pi es) (Event.rejectC blk)) rs).status = Status.running) :
    ((step (Run pi es) (Event.rejectC blk)).status = Status.running ∧
      blk.Index ∉ (step (Run pi es) (Event.rejectC blk)).requested ∧
      blk.Index ∉ (step (Run pi es) (Event.rejectC blk)).done) ∧
    (blk.Index ∈ (requestBlocks (runEvents (step (Run pi es) (Event.rejectC blk)) rs)).requested ∧
      ∃ a b, (requestBlocks (runEvents (step (Run pi es) (Event.rejectC blk)) rs)).sent =
        (runEvents (step (Run pi es) (Event.rejectC blk)) rs).sent ++ a ++
          [requestMsg pi blk.Index] ++ b) ∧
    (∀ p, (receiveBlock (runEvents (step (Run pi es) (Event.rejectC blk)) rs) p).status =
        Status.running →
      blk.Index ∈
        (step (runEvents (step (Run pi es) (Event.rejectC blk)) rs) (Event.pieceC p)).requested ∧
      ∃ a b, (step (runEvents (step (Run pi es) (Event.rejectC blk)) rs) (Event.pieceC p)).sent =
        (runEvents (step (Run pi es) (Event.rejectC blk)) rs).sent ++ a ++
          [requestMsg pi blk.Index] ++ b) ∧
    (∀ (d : PieceDownloader) (e : Event), blk.Index ∉ d.done → blk.Index ∈ (step d e).done →
      ∃ p, e = Event.pieceC p ∧ p.Block.Index = blk.Index) := by
  have hw1 : Waiting blk.Index (step (Run pi es) (Event.rejectC blk)) :=
    Waiting_reject blk (Inv_Run pi es) hrun rfl hmem
  have hw2 := Waiting_runEvents rs hw1 hrs hgo
  have hP : (runEvents (step (Run pi es) (Event.rejectC blk)) rs).Piece = pi := by
    rw [runEvents_Piece, step_Piece, Run_Piece]
  refine ⟨⟨hw1.running, hw1.notRequested, hw1.notDone⟩, ?_, ?_,
    fun d e h1 h2 => done_grows_by_piece d e _ h1 h2⟩
  · have := Waiting_requestBlocks hw2
    rw [hP] at this
    exact this
  · intro p hp
    obtain ⟨hw3, hnot⟩ := Waiting_receiveBlock p hw2 hp
    have := Waiting_requestBlocks hw3
    rw [(receiveBlock_frame _ p).1, hP, (receiveBlock_frame _ p).2.2.1] at this
    rw [step_piece_request _ p hp hnot]
    exact this

theorem rejected_block_requested_again_witness :
    1 ∈ (requestBlocks (runEvents (step (Run twoBlockPiece [evBlock0])
      (Event.rejectC { Index := 1, Begin := 4, Length := 4 })) [Event.chokeC])).requested :=
  (rejected_block_requested_again twoBlockPiece [evBlock0] [Event.chokeC]
    { Index := 1, Begin := 4, Length := 4 } (by decide) (by decide)
    (by
      intro e he
      rw [List.mem_singleton] at he
      exact Or.inr he)
    (by decide)).2.1.1

/-- C6 as stated fails: with 11 blocks, after the first pass, a choke and an
unchoke, block 10 is not done, yet it is not requested and no message for it
has been sent. -/
theorem unchoke_leaves_block_unrequested :
    (Run elevenBlockPiece [Event.chokeC, Event.unchokeC]).status = Status.running ∧
    (Run elevenBlockPiece [Event.chokeC]).requested = [] ∧
    10 < elevenBlockPiece.Blocks.length ∧
    10 ∉ (Run elevenBlockPiece [Event.chokeC, Event.unchokeC]).done ∧
    10 ∉ (Run elevenBlockPiece [Event.chokeC, Event.unchokeC]).requested ∧
    requestMsg elevenBlockPiece 10 ∉ (Run elevenBlockPiece [Event.chokeC, Event.unchokeC]).sent := by
  decide

/-- A scan whose requested indices all lie below the cursor adds the not-done
indices from the cursor on, lowest first, until ten are requested. -/
theorem requestLoop_scan (fuel : Nat) (d : PieceDownloader) (hr : d.status = Status.running)
    (hlt : ∀ r, r ∈ d.requested → r < d.nextBlockIndex)
    (hf : fuel = d.Piece.Blocks.length % 2 ^ 32 - d.nextBlockIndex) :
    (requestLoop fuel d).requested =
      (((List.range' d.nextBlockIndex fuel).filter (fun i => decide (i ∉ d.done))).take
        (10 - d.requested.length)).reverse ++ d.requested ∧
    (requestLoop fuel d).sent =
      d.sent ++ (((List.range' d.nextBlockIndex fuel).filter (fun i => decide (i ∉ d.done))).take
        (10 - d.requested.length)).map (requestMsg d.Piece) := by
  induction fuel generalizing d with
  | zero => simp [requestLoop]
  | succ n ih =>
    unfold requestLoop
    by_cases hlen : d.requested.length < 10
    · have hc : requestCond d = true := (requestCond_iff d).2 ⟨by omega, hlen⟩
      rw [if_pos ⟨hc, hr⟩, requestBody_eq hc]
      obtain ⟨f1, f2, _, _, f5, _, f7⟩ := requestBodyOk_frame d
      by_cases hd : d.nextBlockIndex ∈ d.done
      · have hb : requestBodyOk d = { d with nextBlockIndex := d.nextBlockIndex + 1 } := by
          simp only [requestBodyOk, hd, if_true]
        have := ih (requestBodyOk d) (f5.trans hr)
          (by rw [hb]; exact fun r h => Nat.lt_succ_of_lt (hlt r h)) (by rw [f1, f7]; omega)
        rw [hb] at this
        simp only at this
        rw [hb]
        simp only [List.range'_succ, List.filter_cons, hd, not_true_eq_false, decide_False,
          Bool.false_eq_true, if_false]
        exact this
      · have hnr : d.nextBlockIndex ∉ d.requested := fun h => Nat.lt_irrefl _ (hlt _ h)
        have hb : requestBodyOk d =
            { d with
              requested := d.nextBlockIndex :: d.requested
              sent := d.sent ++ [requestMsg d.Piece d.nextBlockIndex]
              nextBlockIndex := d.nextBlockIndex + 1 } := by
          simp only [requestBodyOk, hd, if_false, List.insert_of_not_mem hnr]
        have := ih (requestBodyOk d) (f5.trans hr)
          (by
            rw [hb]
            intro r h
            rcases List.mem_cons.1 h with h | h
            · rw [h]; exact Nat.lt_succ_self _
            · exact Nat.lt_succ_of_lt (hlt r h))
          (by rw [f1, f7]; omega)
        rw [hb] at this
        simp only [List.length_cons] at this
        rw [hb]
        obtain ⟨m, hm⟩ : ∃ m, 10 - d.requested.length = m + 1 :=
          ⟨10 - d.requested.length - 1, by omega⟩
        have hm2 : 10 - (d.requested.length + 1) = m := by omega
        rw [hm2] at this
        simp only [List.range'_succ, List.filter_cons, hd, not_false_eq_true, decide_True,
          if_true, hm, List.take_succ_cons, List.reverse_cons, List.map_cons]
        rw [this.1, this.2]
        simp
    · rw [if_neg (fun h => hlen ((requestCond_iff d).1 h.1).2)]
      have : 10 - d.requested.length = 0 := by omega
      simp [this]

/-- C6 (amended): a choke leaves `requested` empty; when the next event is an
unchoke, its handler sends the request messages of the lowest ten block
indices that are not in `done` (of all of them when they are at most ten), in
index order, and exactly these indices are in `requested` afterwards. -/
theorem unchoke_requests_first_pending (d : PieceDownloader) (hr : d.status = Status.running)
    (hN : d.Piece.Blocks.length < 2 ^ 32) :
    (step d Event.chokeC).requested = [] ∧
    (step (step d Event.chokeC) Event.unchokeC).sent =
      d.sent ++ (firstPending d).map (requestMsg d.Piece) ∧
    (∀ i, i ∈ (step (step d Event.chokeC) Event.unchokeC).requested ↔ i ∈ firstPending d) ∧
    (((List.range d.Piece.Blocks.length).filter (fun i => decide (i ∉ d.done))).length ≤ 10 →
      ∀ i, i < d.Piece.Blocks.length → i ∉ d.done →
        i ∈ (step (step d Event.chokeC) Event.unchokeC).requested) := by
  have hscan := requestLoop_scan (d.Piece.Blocks.length % 2 ^ 32)
    { d with requested := [], nextBlockIndex := 0 } hr
    (fun r h => absurd h (List.not_mem_nil r)) rfl
  simp only [Nat.mod_eq_of_lt hN, List.length_nil, Nat.sub_zero, List.append_nil,
    ← List.range_eq_range'] at hscan
  have hreq : (step (step d Event.chokeC) Event.unchokeC).requested = (firstPending d).reverse := by
    simp only [step, requestBlocks, Nat.mod_eq_of_lt hN, Nat.sub_zero]
    exact hscan.1
  have hmem : ∀ i, i ∈ (step (step d Event.chokeC) Event.unchokeC).requested ↔
      i ∈ firstPending d := by
    intro i
    rw [hreq, List.mem_reverse]
  refine ⟨rfl, ?_, hmem, ?_⟩
  · simp only [step, requestBlocks, Nat.mod_eq_of_lt hN, Nat.sub_zero]
    exact hscan.2
  · intro hfew i hi hnd
    rw [hmem, firstPending, maxQueuedBlocks, List.take_of_length_le hfew, List.mem_filter]
    exact ⟨List.mem_range.2 hi, by simpa using hnd⟩

theorem unchoke_requests_first_pending_witness :
    (step (step (Run twoBlockPiece [evBlock0]) Event.chokeC) Event.unchokeC).sent =
      (Run twoBlockPiece [evBlock0]).sent ++ [{ Index := 0, Begin := 4, Length := 4 }] :=
  (unchoke_requests_first_pending (Run twoBlockPiece [evBlock0]) (by decide) (by decide)).2.1

theorem requestLoop_length (fuel : Nat) (d : PieceDownloader) (h : d.requested.length ≤ 10) :
    (requestLoop fuel d).requested.length ≤ 10 := by
  apply requestLoop_induct (fun x => x.requested.length ≤ 10) _ fuel d h
  intro x hc _ hx
  have hlen := ((requestCond_iff x).1 hc).2
  unfold requestBodyOk
  split
  · exact hx
  · by_cases hm : x.nextBlockIndex ∈ x.requested
    · simp only [List.insert_of_mem hm]
      exact hx
    · simp only [List.length_insert_of_not_mem hm]
      omega

theorem receiveBlock_length (d : PieceDownloader) (p : PieceEvent) :
    (receiveBlock d p).requested.length ≤ d.requested.length := by
  have he : (d.requested.erase p.Block.Index).length ≤ d.requested.length :=
    List.Sublist.length_le (List.erase_sublist _ _)
  unfold receiveBlock
  split
  · exact Nat.le_refl _
  · simp only
    split
    · split <;> exact he
    · exact he

/-- C7: for every piece and event sequence the number of requested indices is
at most 10 in the state after the events, in every state inside the first
`requestBlocks`, inside a `requestBlocks` started from the state after the
events, after the `delete` of a block-data handler, and inside the
`requestBlocks` that this handler starts. -/
theorem requested_at_most_ten (pi : Piece) (es : List Event) (fuel : Nat) (p : PieceEvent) :
    (Run pi es).requested.length ≤ maxQueuedBlocks ∧
    (requestLoop fuel (New pi)).requested.length ≤ maxQueuedBlocks ∧
    (requestLoop fuel (Run pi es)).requested.length ≤ maxQueuedBlocks ∧
    (receiveBlock (Run pi es) p).requested.length ≤ maxQueuedBlocks ∧
    (requestLoop fuel (receiveBlock (Run pi es) p)).requested.length ≤ maxQueuedBlocks := by
  have h := (Inv_Run pi es).reqLen
  have h2 := le_trans (receiveBlock_length (Run pi es) p) h
  exact ⟨h, requestLoop_length fuel _ (by simp [New]), requestLoop_length fuel _ h, h2,
    requestLoop_length fuel _ h2⟩

/-- C8 as stated fails: after block 0 and the reject of block 1 nothing runs
`requestBlocks`, so block 1 is not requested again (only the two first
messages were sent) and its data ends the run with the unrequested-block
error and no write. -/
theorem reject_then_data_fails :
    (Run twoBlockPiece [evBlock0, evReject1]).requested = [] ∧
    (Run twoBlockPiece [evBlock0, evReject1]).sent =
      [{ Index := 0, Begin := 0, Length := 4 }, { Index := 0, Begin := 4, Length := 4 }] ∧
    (Run twoBlockPiece [evBlock0, evReject1, evBlock1]).status = Status.returned ∧
    (Run twoBlockPiece [evBlock0, evReject1, evBlock1]).error =
      some (RunError.unrequestedBlock { Index := 1, Begin := 4, Length := 4 }) ∧
    (Run twoBlockPiece [evBlock0, evReject1, evBlock1]).written = [] := by
  decide

/-- C8 (amended): with an unchoke between the reject and the data, block 1 is
requested again by the unchoke (a third message, index back in `requested`)
before its data arrives, and the run returns with a nil error and the 8 bytes
written to the sink. -/
theorem reject_unchoke_data_succeeds :
    (Run twoBlockPiece [evBlock0, evReject1, Event.unchokeC]).requested = [1] ∧
    (Run twoBlockPiece [evBlock0, evReject1, Event.unchokeC]).sent =
      [{ Index := 0, Begin := 0, Length := 4 }, { Index := 0, Begin := 4, Length := 4 },
       { Index := 0, Begin := 4, Length := 4 }] ∧
    (Run twoBlockPiece [evBlock0, evReject1, Event.unchokeC, evBlock1]).status =
      Status.returned ∧
    (Run twoBlockPiece [evBlock0, evReject1, Event.unchokeC, evBlock1]).error = none ∧
    (Run twoBlockPiece [evBlock0, evReject1, Event.unchokeC, evBlock1]).written =
      [[1, 2, 3, 4, 5, 6, 7, 8]] := by
  decide

theorem requestBlocks_sent (d : PieceDownloader) :
    ∃ l : List Nat, (requestBlocks d).sent = d.sent ++ l.map (requestMsg d.Piece) ∧
      ∀ i, i ∈ l → i ∉ d.done ∧ i < d.Piece.Blocks.length := by
  have key := requestLoop_induct
    (fun x => x.Piece = d.Piece ∧ x.done = d.done ∧
      ∃ l : List Nat, x.sent = d.sent ++ l.map (requestMsg d.Piece) ∧
        ∀ i, i ∈ l → i ∉ d.done ∧ i < d.Piece.Blocks.length)
    (by
      intro x hc _ hx
      obtain ⟨h1, h2, l, h3, h4⟩ := hx
      have hlt := lt_of_lt_of_le ((requestCond_iff x).1 hc).1 (Nat.mod_le _ _)
      unfold requestBodyOk
      split
      · exact ⟨h1, h2, l, h3, h4⟩
      · rename_i hnd
        refine ⟨h1, h2, l ++ [x.nextBlockIndex], ?_, ?_⟩
        · simp only [h3, h1, List.map_append, List.map_cons, List.map_nil, List.append_assoc]
        · intro i hi
          rcases List.mem_append.1 hi with h | h
          · exact h4 i h
          · rw [List.mem_singleton] at h
            rw [h, ← h2, ← h1]
            exact ⟨hnd, hlt⟩)
    (d.Piece.Blocks.length % 2 ^ 32 - d.nextBlockIndex) d
    ⟨rfl, rfl, [], by simp, fun i hi => absurd hi (List.not_mem_nil i)⟩
  exact key.2.2

/-- C9: every message that a call of `requestBlocks` sends is the request
message of a block whose index is not in `done` (which the call leaves as it
is); and the messages sent while one event is handled are request messages
of blocks whose indices are not in `done` when the handler ends, `done`
being changed only before the handler calls `requestBlocks`. -/
theorem no_request_for_done_block (d : PieceDownloader) (e : Event) :
    (∃ l : List Nat, (requestBlocks d).sent = d.sent ++ l.map (requestMsg d.Piece) ∧
      (requestBlocks d).done = d.done ∧
      ∀ i, i ∈ l → i ∉ d.done ∧ i < d.Piece.Blocks.length) ∧
    (∃ l : List Nat, (step d e).sent = d.sent ++ l.map (requestMsg d.Piece) ∧
      ∀ i, i ∈ l → i ∉ (step d e).done ∧ i < d.Piece.Blocks.length) := by
  have hnil : ∀ x : PieceDownloader, x.sent = d.sent →
      ∃ l : List Nat, x.sent = d.sent ++ l.map (requestMsg d.Piece) ∧
        ∀ i, i ∈ l → i ∉ x.done ∧ i < d.Piece.Blocks.length :=
    fun x hx => ⟨[], by simp [hx], fun i hi => absurd hi (List.not_mem_nil i)⟩
  constructor
  · obtain ⟨l, h1, h2⟩ := requestBlocks_sent d
    exact ⟨l, h1, (requestBlocks_frame d).2.1, h2⟩
  · cases e with
    | pieceC p =>
      obtain ⟨f1, _, f3, _⟩ := receiveBlock_frame d p
      simp only [step, handlePiece]
      split
      · unfold completeOrRequest
        split
        · split
          · exact hnil _ f3
          · exact hnil _ f3
        · obtain ⟨l, h1, h2⟩ := requestBlocks_sent (receiveBlock d p)
          rw [f1, f3] at h1
          rw [f1] at h2
          refine ⟨l, h1, ?_⟩
          rw [(requestBlocks_frame _).2.1]
          exact h2
      · exact hnil _ f3
    | rejectC blk =>
      simp only [step, handleReject]
      split
      · exact hnil _ rfl
      · exact hnil _ rfl
    | chokeC => exact hnil _ rfl
    | unchokeC =>
      obtain ⟨l, h1, h2⟩ := requestBlocks_sent d
      refine ⟨l, h1, ?_⟩
      simp only [step]
      rw [(requestBlocks_frame d).2.1]
      exact h2
    | closeC => exact hnil _ rfl

/-- C10 (code evaluated at the failing input): for the address 1.2.3.4:80
`MarshalBinary` returns an empty slice with a nil error, and `UnmarshalBinary`
of that slice reports the length error and leaves the receiver as it was. -/
theorem marshal_roundtrip_fails :
    MarshalBinary (NewCompactPeer { IP := [1, 2, 3, 4], Port := 80 }) = ([], none) ∧
    UnmarshalBinary { IP := [0, 0, 0, 0], Port := 0 }
      (MarshalBinary (NewCompactPeer { IP := [1, 2, 3, 4], Port := 80 })).1 =
      ({ IP := [0, 0, 0, 0], Port := 0 }, some CodecError.invalidCompactPeerLength) ∧
    (binaryWrite { buf := [] } (NewCompactPeer { IP := [1, 2, 3, 4], Port := 80 })).1.buf =
      [1, 2, 3, 4, 0, 80] := by
  decide

/-- C11 (code evaluated): for every `CompactPeer`, and so for 1.2.3.4:80,
`MarshalBinary` returns the empty slice with a nil error, while the six bytes
the claim describes are what `binary.Write` has put in the buffer. -/
theorem marshal_returns_empty_slice (p : CompactPeer) :
    MarshalBinary p = ([], none) ∧
    (MarshalBinary { IP := [1, 2, 3, 4], Port := 80 }).1.length = 0 ∧
    (binaryWrite { buf := [] } { IP := [1, 2, 3, 4], Port := 80 }).1.buf = [1, 2, 3, 4, 0, 80] := by
  refine ⟨?_, by decide, by decide⟩
  simp [MarshalBinary, binaryWrite]

theorem UnmarshalBinary_of_length {data : List Nat} (p : CompactPeer) (h : data.length = 6) :
    UnmarshalBinary p data =
      ({ IP := data.take 4, Port := data.getD 4 0 * 256 + data.getD 5 0 }, none) := by
  simp [UnmarshalBinary, binaryRead, h]

/-- C13: `UnmarshalBinary` returns an error exactly when `len(data) != 6`; on
error the receiver is unchanged, and on success its IP is `data[0..3]` and its
port `256*data[4] + data[5]`. -/
theorem unmarshal_checks_length (p : CompactPeer) (data : List Nat) :
    ((UnmarshalBinary p data).2 ≠ none ↔ data.length ≠ 6) ∧
    (data.length ≠ 6 → (UnmarshalBinary p data).1 = p) ∧
    (data.length = 6 →
      (UnmarshalBinary p data).2 = none ∧
      (UnmarshalBinary p data).1.IP = data.take 4 ∧
      (UnmarshalBinary p data).1.Port = 256 * data.getD 4 0 + data.getD 5 0) := by
  by_cases h : data.length = 6
  · rw [UnmarshalBinary_of_length p h]
    simp [h, Nat.mul_comm]
  · simp [UnmarshalBinary, h]

theorem unmarshal_checks_length_witness :
    (UnmarshalBinary zeroCompactPeer [1, 2, 3, 4, 0, 80]).1 = { IP := [1, 2, 3, 4], Port := 80 } ∧
    (UnmarshalBinary zeroCompactPeer [1, 2, 3]).1 = zeroCompactPeer := by
  have h2 := (unmarshal_checks_length zeroCompactPeer [1, 2, 3]).2.1 (by decide)
  exact ⟨by decide, h2⟩

theorem slice_record (b : List Nat) (j : Nat) (h : 6 * j + 6 ≤ b.length) :
    UnmarshalBinary zeroCompactPeer ((b.drop (6 * j)).take 6) =
      ({ IP := (b.drop (6 * j)).take 4,
         Port := b.getD (6 * j + 4) 0 * 256 + b.getD (6 * j + 5) 0 }, none) := by
  have hl : ((b.drop (6 * j)).take 6).length = 6 := by
    rw [List.length_take, List.length_drop]
    omega
  rw [UnmarshalBinary_of_length _ hl]
  have h4 : ((b.drop (6 * j)).take 6).getD 4 0 = b.getD (6 * j + 4) 0 := by
    simp [List.getD_eq_getElem?_getD, List.getElem?_take, List.getElem?_drop]
  have h5 : ((b.drop (6 * j)).take 6).getD 5 0 = b.getD (6 * j + 5) 0 := by
    simp [List.getD_eq_getElem?_getD, List.getElem?_take, List.getElem?_drop]
  rw [h4, h5, List.take_take]
  rfl

/-- With enough fuel the loop appends the addresses of the records from
number `j` on, in order, and ends without error. -/
theorem decodeLoop_eq (b : List Nat) (k : Nat) (hb : b.length = 6 * k) :
    ∀ (fuel j : Nat) (acc : List TCPAddr), j ≤ k → k - j ≤ fuel →
      decodeLoop fuel b (6 * j) acc = (acc ++ (List.range' j (k - j)).map (recordAddr b), none) := by
  intro fuel
  induction fuel with
  | zero =>
    intro j acc _ hf
    have : k - j = 0 := by omega
    simp [decodeLoop, this]
  | succ n ih =>
    intro j acc hj hf
    unfold decodeLoop
    by_cases hlt : 6 * j < b.length
    · rw [if_pos hlt, slice_record b j (by omega)]
      simp only
      have := ih (j + 1) (acc ++ [CompactPeer.Addr
        { IP := (b.drop (6 * j)).take 4,
          Port := b.getD (6 * j + 4) 0 * 256 + b.getD (6 * j + 5) 0 }]) (by omega) (by omega)
      rw [show 6 * (j + 1) = 6 * j + 6 by ring] at this
      rw [this]
      obtain ⟨m, hm⟩ : ∃ m, k - j = m + 1 := ⟨k - j - 1, by omega⟩
      have hm2 : k - (j + 1) = m := by omega
      rw [hm, hm2, List.range'_succ, List.map_cons, List.append_assoc]
      rfl
    · rw [if_neg hlt]
      have : k - j = 0 := by omega
      simp [this]

/-- C12: `DecodePeersCompact` returns an error, and no address, exactly when
the length is not a multiple of 6; for a length `6k` it returns without error
the `k` addresses of the 6-byte records in input order, the `i`-th with IP
`b[6i..6i+3]` and port `256*b[6i+4] + b[6i+5]`, and more loop iterations would
not change the result. -/
theorem decode_peers_compact_spec (b : List Nat) :
    ((DecodePeersCompact b).2 ≠ none ↔ b.length % 6 ≠ 0) ∧
    (b.length % 6 ≠ 0 → (DecodePeersCompact b).1 = []) ∧
    (b.length % 6 = 0 →
      (DecodePeersCompact b).2 = none ∧
      (DecodePeersCompact b).1 = (List.range (b.length / 6)).map (recordAddr b) ∧
      (DecodePeersCompact b).1.length = b.length / 6 ∧
      ∀ fuel, b.length / 6 ≤ fuel → decodeLoop fuel b 0 [] = DecodePeersCompact b) := by
  by_cases h : b.length % 6 = 0
  · have hb : b.length = 6 * (b.length / 6) := by omega
    have key := decodeLoop_eq b (b.length / 6) hb
    have hd : DecodePeersCompact b = ((List.range (b.length / 6)).map (recordAddr b), none) := by
      have := key (b.length / 6) 0 [] (Nat.zero_le _) (by omega)
      simp only [DecodePeersCompact, h, ne_eq, not_true_eq_false, if_false]
      rw [Nat.mul_zero] at this
      rw [this, List.range_eq_range']
      simp
    rw [hd]
    refine ⟨by simp [h], fun hne => absurd h hne, fun _ => ⟨rfl, rfl, by simp, ?_⟩⟩
    intro fuel hf
    have := key fuel 0 [] (Nat.zero_le _) (by omega)
    rw [Nat.mul_zero] at this
    rw [this, List.range_eq_range']
    simp
  · simp [DecodePeersCompact, h]

theorem decode_peers_compact_spec_witness :
    (DecodePeersCompact [1, 2, 3, 4, 0, 80, 10, 0, 0, 1, 1, 187]).1 =
      [{ IP := [1, 2, 3, 4], Port := 80 }, { IP := [10, 0, 0, 1], Port := 443 }] ∧
    (DecodePeersCompact [1, 2, 3, 4, 0, 80, 10]).1 = [] := by
  have h1 := ((decode_peers_compact_spec [1, 2, 3, 4, 0, 80, 10, 0, 0, 1, 1, 187]).2.2
    (by decide)).2.1
  have h2 := (decode_peers_compact_spec [1, 2, 3, 4, 0, 80, 10]).2.1 (by decide)
  exact ⟨by rw [h1]; decide, h2⟩

/-- C14 as stated fails: for a 16-byte IP `NewCompactPeer` keeps the first four
bytes and the encode path reports no error. -/
theorem ipv6_encode_reports_no_error :
    ipv6Addr.IP.length = 16 ∧
    (NewCompactPeer ipv6Addr).IP = [32, 1, 13, 184] ∧
    (MarshalBinary (NewCompactPeer ipv6Addr)).2 = none := by
  decide

/-- C14 (amended): the encode path has no error for any address: the record
built by `NewCompactPeer` has a 4-byte IP, the first four bytes of the
address's IP when it has at least four, and the low 16 bits of the port, and
`MarshalBinary` returns a nil error. -/
theorem encode_never_fails (addr : TCPAddr) :
    (NewCompactPeer addr).IP.length = 4 ∧
    (4 ≤ addr.IP.length → (NewCompactPeer addr).IP = addr.IP.take 4) ∧
    (NewCompactPeer addr).Port = (addr.Port % 65536).toNat ∧
    (MarshalBinary (NewCompactPeer addr)).2 = none := by
  refine ⟨?_, ?_, rfl, rfl⟩
  · simp only [NewCompactPeer, copyBytes, List.length_append, List.length_take, List.length_drop,
      List.length_cons, List.length_nil]
    omega
  · intro h
    simp only [NewCompactPeer, copyBytes, List.length_cons, List.length_nil]
    rw [List.drop_eq_nil_of_le (by simpa using h)]
    simp

theorem encode_never_fails_witness :
    (NewCompactPeer ipv6Addr).IP = [32, 1, 13, 184] :=
  (encode_never_fails ipv6Addr).2.1 (by decide)

/-- C15 as stated fails: after the first pass, a reject of block 0 and an
unchoke, index 1 has been in `requested` all the time, and the unchoke has sent
its request message a second time. -/
theorem reject_resends_requested_block :
    1 ∈ (Run twoBlockPiece []).requested ∧
    1 ∈ (Run twoBlockPiece [evReject0]).requested ∧
    1 ∈ (Run twoBlockPiece [evReject0, Event.unchokeC]).requested ∧
    (Run twoBlockPiece [evReject0]).sent =
      [requestMsg twoBlockPiece 0, requestMsg twoBlockPiece 1] ∧
    (Run twoBlockPiece [evReject0, Event.unchokeC]).sent =
      [requestMsg twoBlockPiece 0, requestMsg twoBlockPiece 1,
       requestMsg twoBlockPiece 0, requestMsg twoBlockPiece 1] := by
  decide

theorem Ordered_requestLoop (fuel : Nat) {d : PieceDownloader} (h : Ordered d) :
    Ordered (requestLoop fuel d) := by
  apply requestLoop_induct Ordered _ fuel d h
  intro x _ _ hx
  unfold requestBodyOk
  split
  · exact fun r hr => Nat.lt_succ_of_lt (hx r hr)
  · intro r hr
    rcases List.mem_insert_iff.1 hr with h1 | h1
    · rw [h1]; exact Nat.lt_succ_self _
    · exact Nat.lt_succ_of_lt (hx r h1)

theorem receiveBlock_requested_subset (d : PieceDownloader) (p : PieceEvent) :
    ∀ r, r ∈ (receiveBlock d p).requested → r ∈ d.requested := by
  intro r
  unfold receiveBlock
  split
  · exact fun h => h
  · simp only
    split
    · split <;> exact fun h => List.mem_of_mem_erase h
    · exact fun h => List.mem_of_mem_erase h

theorem Ordered_receiveBlock {d : PieceDownloader} (p : PieceEvent) (h : Ordered d) :
    Ordered (receiveBlock d p) := by
  intro r hr
  rw [(receiveBlock_frame d p).2.2.2]
  exact h r (receiveBlock_requested_subset d p r hr)

theorem Ordered_completeOrRequest {d : PieceDownloader} (h : Ordered d) :
    Ordered (completeOrRequest d) := by
  unfold completeOrRequest
  split
  · split <;> exact h
  · exact Ordered_requestLoop _ h

theorem Ordered_step {d : PieceDownloader} (e : Event) (h : Ordered d)
    (he : ∀ blk, e ≠ Event.rejectC blk) : Ordered (step d e) := by
  cases e with
  | pieceC p =>
    simp only [step, handlePiece]
    split
    · exact Ordered_completeOrRequest (Ordered_receiveBlock p h)
    · exact Ordered_receiveBlock p h
  | rejectC blk => exact absurd rfl (he blk)
  | chokeC => exact fun r hr => absurd hr (List.not_mem_nil r)
  | unchokeC => exact Ordered_requestLoop _ h
  | closeC => exact h

theorem Ordered_runEvents (es : List Event) {d : PieceDownloader} (h : Ordered d)
    (he : ∀ e, e ∈ es → ∀ blk, e ≠ Event.rejectC blk) : Ordered (runEvents d es) := by
  induction es generalizing d with
  | nil => exact h
  | cons e es ih =>
    unfold runEvents
    split
    · exact ih (Ordered_step e h (he e (List.mem_cons_self _ _)))
        (fun e' he' => he e' (List.mem_cons_of_mem _ he'))
    · exact h

theorem Ordered_Run (pi : Piece) (es : List Event)
    (he : ∀ e, e ∈ es → ∀ blk, e ≠ Event.rejectC blk) : Ordered (Run pi es) :=
  Ordered_runEvents es
    (Ordered_requestLoop _ (fun r hr => absurd hr (List.not_mem_nil r))) he

/-- From a state whose requested indices lie below the cursor, a call of
`requestBlocks` sends one message for each index it adds to `requested`, and
none of these indices was in `requested` before. -/
theorem requestBlocks_fresh (d : PieceDownloader) (hr : d.status = Status.running)
    (ho : Ordered d) :
    ∃ l : List Nat, (requestBlocks d).sent = d.sent ++ l.map (requestMsg d.Piece) ∧
      (requestBlocks d).requested = l.reverse ++ d.requested ∧ l.Nodup ∧
      ∀ i, i ∈ l → i ∉ d.requested ∧ i ∉ d.done := by
  obtain ⟨h1, h2⟩ := requestLoop_scan _ d hr ho rfl
  refine ⟨_, h2, h1, ?_, ?_⟩
  · exact ((List.nodup_range' _ _).filter _).sublist (List.take_sublist _ _)
  · intro i hi
    have hf := List.mem_of_mem_take hi
    rw [List.mem_filter, List.mem_range'_1] at hf
    exact ⟨fun hq => absurd (ho i hq) (by omega), by simpa using hf.2⟩

/-- C15 (amended): in a run without reject events every requested index lies
below the cursor, so each call of `requestBlocks` (the first pass, on an
unchoke, in the handler of a block-data event) sends exactly one message for
each index it puts in `requested`, none of which was in `requested` before. -/
theorem one_request_per_index_without_reject (pi : Piece) (es : List Event) (p : PieceEvent)
    (hno : ∀ e, e ∈ es → ∀ blk, e ≠ Event.rejectC blk)
    (hr : (Run pi es).status = Status.running) :
    (∀ r, r ∈ (Run pi es).requested → r < (Run pi es).nextBlockIndex) ∧
    (∃ l : List Nat, (requestBlocks (New pi)).sent = l.map (requestMsg pi) ∧
      (requestBlocks (New pi)).requested = l.reverse ∧ l.Nodup) ∧
    (∃ l : List Nat,
      (requestBlocks (Run pi es)).sent = (Run pi es).sent ++ l.map (requestMsg pi) ∧
      (requestBlocks (Run pi es)).requested = l.reverse ++ (Run pi es).requested ∧ l.Nodup ∧
      ∀ i, i ∈ l → i ∉ (Run pi es).requested ∧ i ∉ (Run pi es).done) ∧
    ((receiveBlock (Run pi es) p).status = Status.running →
      ∃ l : List Nat,
        (requestBlocks (receiveBlock (Run pi es) p)).sent =
          (Run pi es).sent ++ l.map (requestMsg pi) ∧
        (requestBlocks (receiveBlock (Run pi es) p)).requested =
          l.reverse ++ (receiveBlock (Run pi es) p).requested ∧ l.Nodup ∧
        ∀ i, i ∈ l → i ∉ (receiveBlock (Run pi es) p).requested ∧
          i ∉ (receiveBlock (Run pi es) p).done) := by
  have ho := Ordered_Run pi es hno
  refine ⟨ho, ?_, ?_, ?_⟩
  · obtain ⟨l, h1, h2, h3, _⟩ := requestBlocks_fresh (New pi) rfl
      (fun r hq => absurd hq (List.not_mem_nil r))
    exact ⟨l, by simpa [New] using h1, by simpa [New] using h2, h3⟩
  · have := requestBlocks_fresh (Run pi es) hr ho
    rw [Run_Piece] at this
    exact this
  · intro hp
    have := requestBlocks_fresh (receiveBlock (Run pi es) p) hp (Ordered_receiveBlock p ho)
    rw [(receiveBlock_frame _ p).1, (receiveBlock_frame _ p).2.2.1, Run_Piece] at this
    exact this

theorem one_request_per_index_without_reject_witness :
    ∃ l : List Nat,
      (requestBlocks (Run twoBlockPiece [Event.chokeC])).sent =
        (Run twoBlockPiece [Event.chokeC]).sent ++ l.map (requestMsg twoBlockPiece) ∧
      (requestBlocks (Run twoBlockPiece [Event.chokeC])).requested =
        l.reverse ++ (Run twoBlockPiece [Event.chokeC]).requested ∧ l.Nodup ∧
      ∀ i, i ∈ l → i ∉ (Run twoBlockPiece [Event.chokeC]).requested ∧
        i ∉ (Run twoBlockPiece [Event.chokeC]).done :=
  (one_request_per_index_without_reject twoBlockPiece [Event.chokeC]
    { Block := { Index := 0, Begin := 0, Length := 4 },
      Piece := { Begin := 0, Length := 4, Reader := [1, 2, 3, 4] } }
    (by
      intro e he blk
      rw [List.mem_singleton] at he
      rw [he]
      exact fun h => Event.noConfusion h)
    (by decide)).2.2.1

theorem step_done_mono (d : PieceDownloader) (e : Event) (i : Nat) (h : i ∈ d.done) :
    i ∈ (step d e).done := by
  cases e with
  | pieceC p =>
    simp only [step, handlePiece_done]
    rcases receiveBlock_done d p with h1 | h1
    · rw [h1]; exact h
    · rw [h1]; exact List.mem_insert_of_mem h
  | rejectC blk =>
    simp only [step, handleReject]
    split <;> exact h
  | chokeC => exact h
  | unchokeC =>
    simp only [step, (requestBlocks_frame d).2.1]
    exact h
  | closeC => exact h

theorem runEvents_done_mono (es : List Event) (d : PieceDownloader) (i : Nat) (h : i ∈ d.done) :
    i ∈ (runEvents d es).done := by
  induction es generalizing d with
  | nil => exact h
  | cons e es ih =>
    unfold runEvents
    split
    · exact ih _ (step_done_mono d e i h)
    · exact h

/-- C16: for every event sequence `requested` and `done` are disjoint in the
state reached, in every iterate of a `requestBlocks` loop started there and
after the first part of a block-data handler; and `done` only grows: no
handler removes an index, so an index in `done` after some events is in
`done` after any further events. -/
theorem requested_done_disjoint_and_done_grows (pi : Piece) (es es2 : List Event)
    (fuel : Nat) (p : PieceEvent) :
    (∀ i, i ∈ (Run pi es).requested → i ∉ (Run pi es).done) ∧
    (∀ i, i ∈ (requestLoop fuel (Run pi es)).requested →
      i ∉ (requestLoop fuel (Run pi es)).done) ∧
    ((Run pi es).status = Status.running →
      ∀ i, i ∈ (receiveBlock (Run pi es) p).requested → i ∉ (receiveBlock (Run pi es) p).done) ∧
    (∀ (d : PieceDownloader) (e : Event) (i : Nat), i ∈ d.done → i ∈ (step d e).done) ∧
    (∀ i, i ∈ (Run pi es).done → i ∈ (Run pi (es ++ es2)).done) := by
  refine ⟨(Inv_Run pi es).disjoint, (Inv_requestLoop fuel (Inv_Run pi es)).disjoint,
    fun hr => (Inv_receiveBlock p hr (Inv_Run pi es)).disjoint, step_done_mono, ?_⟩
  intro i hi
  rw [Run_append]
  exact runEvents_done_mono es2 _ i hi

theorem allDone_iff {d : PieceDownloader} (hi : Inv d) :
    allDone d = true ↔ ∀ i, i < d.Piece.Blocks.length → i ∈ d.done := by
  have hb : ∀ x, x ∈ d.done → x < d.Piece.Blocks.length :=
    fun x hx => lt_of_lt_of_le (hi.doneBound x hx) (Nat.mod_le _ _)
  constructor
  · intro ha
    have hlen : d.done.length = d.Piece.Blocks.length := by simpa [allDone] using ha
    exact mem_of_full d.done _ hi.doneNodup hb hlen
  · intro hall
    have hperm : d.done.Perm (List.range d.Piece.Blocks.length) := by
      apply (List.perm_ext_iff_of_nodup hi.doneNodup (List.nodup_range _)).2
      intro a
      rw [List.mem_range]
      exact ⟨hb a, hall a⟩
    have := hperm.length_eq
    rw [List.length_range] at this
    simp [allDone, this]

/-- C17: in every state reached by `Run`, and in the state in which a
block-data handler evaluates it, `allDone` holds exactly when every block
index below N is in `done`; `requested` and `done` hold only indices
below N. -/
theorem allDone_iff_every_block_done (pi : Piece) (es : List Event) (p : PieceEvent) :
    (∀ i, i ∈ (Run pi es).requested → i < pi.Blocks.length) ∧
    (∀ i, i ∈ (Run pi es).done → i < pi.Blocks.length) ∧
    (allDone (Run pi es) = true ↔ ∀ i, i < pi.Blocks.length → i ∈ (Run pi es).done) ∧
    ((Run pi es).status = Status.running →
      (allDone (receiveBlock (Run pi es) p) = true ↔
        ∀ i, i < pi.Blocks.length → i ∈ (receiveBlock (Run pi es) p).done)) := by
  have hi := Inv_Run pi es
  have hP := Run_Piece pi es
  refine ⟨?_, ?_, ?_, ?_⟩
  · intro i h
    have := hi.reqBound i h
    rw [hP] at this
    exact lt_of_lt_of_le this (Nat.mod_le _ _)
  · intro i h
    have := hi.doneBound i h
    rw [hP] at this
    exact lt_of_lt_of_le this (Nat.mod_le _ _)
  · have := allDone_iff hi
    rw [hP] at this
    exact this
  · intro hr
    have := allDone_iff (Inv_receiveBlock p hr hi)
    rw [(receiveBlock_frame _ p).1, hP] at this
    exact this

theorem initial_pass (pi : Piece) (fuel : Nat) :
    ∀ (c : Nat) (d : PieceDownloader), d.Piece = pi → d.done = [] →
      d.requested = (List.range c).reverse → d.nextBlockIndex = c →
      d.sent = (List.range c).map (requestMsg pi) → d.status = Status.running →
      fuel = pi.Blocks.length % 2 ^ 32 - c → c ≤ min (pi.Blocks.length % 2 ^ 32) 10 →
      (requestLoop fuel d).nextBlockIndex = min (pi.Blocks.length % 2 ^ 32) 10 ∧
      (requestLoop fuel d).requested =
        (List.range (min (pi.Blocks.length % 2 ^ 32) 10)).reverse ∧
      (requestLoop fuel d).sent =
        (List.range (min (pi.Blocks.length % 2 ^ 32) 10)).map (requestMsg pi) := by
  induction fuel with
  | zero =>
    intro c d _ _ hq hn hs _ hf hc
    have : c = min (pi.Blocks.length % 2 ^ 32) 10 := by omega
    simp only [requestLoop]
    rw [← this]
    exact ⟨hn, hq, hs⟩
  | succ n ih =>
    intro c d hP hd hq hn hs hr hf hc
    have hlen : d.requested.length = c := by simp [hq]
    unfold requestLoop
    by_cases h10 : c < 10
    · have hcond : requestCond d = true :=
        (requestCond_iff d).2 ⟨by rw [hP, hn]; omega, by omega⟩
      rw [if_pos ⟨hcond, hr⟩, requestBody_eq hcond]
      have hnm : d.nextBlockIndex ∉ d.requested := by
        rw [hq, hn, List.mem_reverse, List.mem_range]
        exact Nat.lt_irrefl c
      have hb : requestBodyOk d =
          { d with
            requested := d.nextBlockIndex :: d.requested
            sent := d.sent ++ [requestMsg d.Piece d.nextBlockIndex]
            nextBlockIndex := d.nextBlockIndex + 1 } := by
        simp only [requestBodyOk, hd, List.not_mem_nil, if_false, List.insert_of_not_mem hnm]
      rw [hb]
      apply ih (c + 1)
      · exact hP
      · exact hd
      · simp only [hq, hn, List.range_succ, List.reverse_append, List.reverse_cons,
          List.reverse_nil, List.nil_append, List.singleton_append]
      · simp only [hn]
      · simp only [hs, hn, hP, List.range_succ, List.map_append, List.map_cons, List.map_nil]
      · exact hr
      · omega
      · omega
    · have hne : ¬ (requestCond d = true ∧ d.status = Status.running) := by
        intro h
        have := ((requestCond_iff d).1 h.1).2
        omega
      rw [if_neg hne]
      have : c = min (pi.Blocks.length % 2 ^ 32) 10 := by omega
      rw [← this]
      exact ⟨hn, hq, hs⟩

/-- C18: for a piece of N blocks (N below 2^32, block indices being `uint32`)
the first `requestBlocks` of `Run` sends exactly min(N, 10) messages, for the
blocks 0, 1, ..., min(N, 10) - 1 in this order, each with the piece index and
the block's `Begin` and `Length`, and leaves exactly these indices in
`requested` and the cursor at min(N, 10). -/
theorem first_pass_requests_first_blocks (pi : Piece) (hN : pi.Blocks.length < 2 ^ 32) :
    Run pi [] = requestBlocks (New pi) ∧
    (Run pi []).sent = (List.range (min pi.Blocks.length 10)).map (requestMsg pi) ∧
    (Run pi []).sent.length = min pi.Blocks.length 10 ∧
    (∀ i (h : i < pi.Blocks.length),
      requestMsg pi i =
        { Index := pi.Index, Begin := pi.Blocks[i].Begin, Length := pi.Blocks[i].Length }) ∧
    (Run pi []).requested.Nodup ∧
    (∀ i, i ∈ (Run pi []).requested ↔ i < min pi.Blocks.length 10) ∧
    (Run pi []).nextBlockIndex = min pi.Blocks.length 10 := by
  have key := initial_pass pi (pi.Blocks.length % 2 ^ 32) 0 (New pi) rfl rfl rfl rfl rfl rfl rfl
    (Nat.zero_le _)
  rw [Nat.mod_eq_of_lt hN] at key
  have hrun : Run pi [] = requestLoop pi.Blocks.length (New pi) := by
    simp only [Run, runEvents, requestBlocks, New, Nat.mod_eq_of_lt hN, Nat.sub_zero]
  refine ⟨rfl, ?_, ?_, ?_, ?_, ?_, ?_⟩
  · rw [hrun]; exact key.2.2
  · rw [hrun, key.2.2]; simp
  · intro i h
    simp only [requestMsg, List.getElem?_eq_getElem h]
  · rw [hrun, key.2.1]
    exact List.nodup_reverse.2 (List.nodup_range _)
  · intro i
    rw [hrun, key.2.1, List.mem_reverse, List.mem_range]
  · rw [hrun]; exact key.1

theorem first_pass_requests_first_blocks_witness :
    (Run elevenBlockPiece []).sent.length = 10 ∧ (Run elevenBlockPiece []).nextBlockIndex = 10 :=
  ⟨(first_pass_requests_first_blocks elevenBlockPiece (by decide)).2.2.1,
   (first_pass_requests_first_blocks elevenBlockPiece (by decide)).2.2.2.2.2.2⟩

/-- C19 as stated fails: the event names block 0, which begins at offset 0 and
is requested, while its message carries offset 4; the handler stores the four
bytes at offsets 4..7 and leaves offsets 0..3 as they were. -/
theorem data_written_at_message_offset :
    evMisplaced.Block.Index ∈ (Run twoBlockPiece []).requested ∧
    twoBlockPiece.Blocks[evMisplaced.Block.Index]? = some { Index := 0, Begin := 0, Length := 4 } ∧
    (Run twoBlockPiece []).buffer = [0, 0, 0, 0, 0, 0, 0, 0] ∧
    (step (Run twoBlockPiece []) (Event.pieceC evMisplaced)).error = none ∧
    (step (Run twoBlockPiece []) (Event.pieceC evMisplaced)).buffer =
      [0, 0, 0, 0, 1, 2, 3, 4] := by
  decide

theorem completeOrRequest_buffer (d : PieceDownloader) :
    (completeOrRequest d).buffer = d.buffer := by
  unfold completeOrRequest
  split
  · split <;> rfl
  · exact (requestBlocks_frame d).2.2.1

/-- C19 (amended): for a block-data event whose index is in `requested`, whose
reader yields at least `p.Piece.Length` bytes and whose window
`[p.Piece.Begin, p.Piece.Begin + p.Piece.Length)` lies within the buffer (of
a `uint32` length), the slice is in bounds (no panic, the read succeeds) and
the handler stores exactly the first `p.Piece.Length` bytes of the reader at
the offset `p.Piece.Begin` carried by the message; every byte outside that
window is unchanged and the buffer keeps its length. -/
theorem data_written_in_message_window (d : PieceDownloader) (p : PieceEvent)
    (hr : d.status = Status.running)
    (hmem : p.Block.Index ∈ d.requested)
    (hread : p.Piece.Length ≤ p.Piece.Reader.length)
    (hfit : p.Piece.Begin + p.Piece.Length ≤ d.buffer.length)
    (h32 : d.buffer.length < 2 ^ 32) :
    (receiveBlock d p).status = Status.running ∧
    (receiveBlock d p).error = none ∧
    (step d (Event.pieceC p)).buffer =
      writeAt d.buffer p.Piece.Begin (p.Piece.Reader.take p.Piece.Length) ∧
    (step d (Event.pieceC p)).buffer.length = d.buffer.length ∧
    (∀ x, p.Piece.Begin ≤ x → x < p.Piece.Begin + p.Piece.Length →
      (step d (Event.pieceC p)).buffer[x]? = p.Piece.Reader[x - p.Piece.Begin]?) ∧
    (∀ x, x < p.Piece.Begin ∨ p.Piece.Begin + p.Piece.Length ≤ x →
      (step d (Event.pieceC p)).buffer[x]? = d.buffer[x]?) := by
  have hrb := receiveBlock_ok d p
    { Index := p.Block.Index, Begin := p.Piece.Begin, Length := p.Piece.Length }
    hmem rfl rfl hfit h32 hread
  simp only at hrb
  have htk : (p.Piece.Reader.take p.Piece.Length).length = p.Piece.Length := by
    rw [List.length_take]; omega
  have hbuf : (step d (Event.pieceC p)).buffer =
      writeAt d.buffer p.Piece.Begin (p.Piece.Reader.take p.Piece.Length) := by
    simp only [step, handlePiece]
    split
    · rw [completeOrRequest_buffer, hrb]
    · rw [hrb]
  have hfit2 : p.Piece.Begin + (p.Piece.Reader.take p.Piece.Length).length ≤ d.buffer.length := by
    rw [htk]; exact hfit
  refine ⟨by rw [hrb]; exact hr, by rw [hrb], hbuf, ?_, ?_, ?_⟩
  · rw [hbuf, length_writeAt _ _ _ hfit2]
  · intro x h1 h2
    rw [hbuf, writeAt_getElem _ _ _ _ hfit2, if_neg (by omega), if_pos (by omega),
      List.getElem?_take, if_pos (by omega)]
  · intro x hx
    rw [hbuf, writeAt_getElem _ _ _ _ hfit2]
    rcases hx with hx | hx
    · rw [if_pos hx]
    · rw [if_neg (by omega), if_neg (by omega)]

theorem data_written_in_message_window_witness :
    (step (Run twoBlockPiece []) evBlock1).buffer =
      writeAt (Run twoBlockPiece []).buffer 4 [5, 6, 7, 8] :=
  (data_written_in_message_window (Run twoBlockPiece [])
    { Block := { Index := 1, Begin := 4, Length := 4 },
      Piece := { Begin := 4, Length := 4, Reader := [5, 6, 7, 8] } }
    (by decide) (by decide) (by decide) (by decide) (by decide)).2.2.1

/-- C20: handling a choke in a state where `Run` is in its loop empties
`requested`, sets the cursor to 0 and changes nothing else: `done`, the
buffer, the messages sent, the sink log and the pending error are as before
and `Run` stays in its loop. -/
theorem choke_clears_requested_only (pi : Piece) (es : List Event)
    (hr : (Run pi es).status = Status.running) :
    Run pi (es ++ [Event.chokeC]) =
      { Run pi es with requested := [], nextBlockIndex := 0 } ∧
    (Run pi (es ++ [Event.chokeC])).requested = [] ∧
    (Run pi (es ++ [Event.chokeC])).nextBlockIndex = 0 ∧
    (Run pi (es ++ [Event.chokeC])).done = (Run pi es).done ∧
    (Run pi (es ++ [Event.chokeC])).buffer = (Run pi es).buffer ∧
    (Run pi (es ++ [Event.chokeC])).sent = (Run pi es).sent ∧
    (Run pi (es ++ [Event.chokeC])).written = (Run pi es).written ∧
    (Run pi (es ++ [Event.chokeC])).error = (Run pi es).error ∧
    (Run pi (es ++ [Event.chokeC])).status = Status.running := by
  have h : Run pi (es ++ [Event.chokeC]) =
      { Run pi es with requested := [], nextBlockIndex := 0 } := by
    rw [Run_snoc pi es _ hr]
    rfl
  rw [h]
  exact ⟨rfl, rfl, rfl, rfl, rfl, rfl, rfl, rfl, hr⟩

theorem choke_clears_requested_only_witness :
    (Run twoBlockPiece ([evBlock0] ++ [Event.chokeC])).requested = [] ∧
    (Run twoBlockPiece ([evBlock0] ++ [Event.chokeC])).done = (Run twoBlockPiece [evBlock0]).done :=
  ⟨(choke_clears_requested_only twoBlockPiece [evBlock0] (by decide)).2.1,
   (choke_clears_requested_only twoBlockPiece [evBlock0] (by decide)).2.2.2.1⟩

end Rain
